import Mathlib

/-!
Shallow embedding of the Adderscript compiler (Go sources: scanner.go,
parser.go, assembler.go, runtime.go, binarycodec.go and the opcode table)
together with proofs about the embedded definitions.

Conventions:
* Go machine integers are modelled as `Int` (Go `int`, `int32`, `int64`) or
  `Nat` where the source only ever holds non-negative values; wrap-around is
  made explicit at the encoding boundary (`beBytes`).
* Go `panic` and runtime failures are modelled with `Except String`.
* Source bytes are modelled as `Nat` values below 256.
-/

/-- Opcodes, numbering taken from the opcode constant block of the source. -/
inductive Opcode where
  | op_pushconst
  | op_jmp
  | op_getlocal
  | op_setlocal
  | op_return
  | op_jz
  | op_eq
  | op_call
  | op_nativecall
  | op_add
  | op_sub
  | op_div
  | op_mul
  | op_mod
  | op_label
  deriving DecidableEq, Repr

/-- Numeric opcode values (op_pushconst = 0 ... op_mod = 13, op_label = 255). -/
def opcodeVal : Opcode → Nat
  | .op_pushconst => 0
  | .op_jmp => 1
  | .op_getlocal => 2
  | .op_setlocal => 3
  | .op_return => 4
  | .op_jz => 5
  | .op_eq => 6
  | .op_call => 7
  | .op_nativecall => 8
  | .op_add => 9
  | .op_sub => 10
  | .op_div => 11
  | .op_mul => 12
  | .op_mod => 13
  | .op_label => 255

/-- VariableType: struct with builtin flag, keyword and native tag
(assembler.go). -/
structure VariableType where
  builtin : Bool
  keyword : String
  native : String
  deriving DecidableEq, Repr

def VarTypeInt : VariableType := ⟨true, "int", ""⟩
def VarTypeLong : VariableType := ⟨true, "long", ""⟩
def VarTypeString : VariableType := ⟨true, "string", ""⟩
def VarTypeBool : VariableType := ⟨true, "bool", ""⟩
def VarTypeVoid : VariableType := ⟨true, "void", ""⟩
def VarTypeUnresolved : VariableType := ⟨true, "MISSING_TYPE", ""⟩

/-- ResolveVarType from assembler.go: keyword switch plus native generic
syntax. -/
def ResolveVarType (varType : String) : VariableType :=
  match varType with
  | "int" => VarTypeInt
  | "long" => VarTypeLong
  | "string" => VarTypeString
  | "bool" => VarTypeBool
  | _ =>
    if varType.startsWith "native<" && varType.endsWith ">" then
      let contents := (varType.replace ">" "").replace "native<" ""
      ⟨false, "native", contents⟩
    else
      VarTypeUnresolved

/-- ResolveType from assembler.go. -/
def ResolveType (typ : String) : VariableType :=
  match typ with
  | "void" => VarTypeVoid
  | _ => ResolveVarType typ

/-- FunctionParameter from runtime.go. -/
structure FunctionParameter where
  Typ : VariableType
  Name : String
  deriving DecidableEq, Repr

/-- RuntimeFunction from runtime.go. -/
structure RuntimeFunction where
  ReturnType : VariableType
  Name : String
  Parameters : List FunctionParameter
  InternalId : Int
  deriving DecidableEq, Repr

/-- RuntimeListener from runtime.go. -/
structure RuntimeListener where
  Name : String
  Parameters : List FunctionParameter
  InternalId : Int
  deriving DecidableEq, Repr

/-- AdderRuntime from runtime.go. -/
structure AdderRuntime where
  Functions : List RuntimeFunction
  Listeners : List RuntimeListener
  deriving DecidableEq, Repr

/-- The inner argument loop of FindFunctionWithArguments: positional type
equality of the declared parameters against the inferred argument types. -/
def paramTypesEq : List FunctionParameter → List VariableType → Bool
  | [], [] => true
  | [], _ :: _ => true
  | _ :: _, [] => false
  | p :: ps, t :: ts => p.Typ == t && paramTypesEq ps ts

/-- FindFunctionWithArguments from runtime.go: first function whose name,
arity and positional parameter types all match. -/
def findFunctionWithArguments :
    List RuntimeFunction → String → List VariableType → Option RuntimeFunction
  | [], _, _ => none
  | v :: rest, name, types =>
    if v.Name == name && v.Parameters.length == types.length
        && paramTypesEq v.Parameters types then
      some v
    else
      findFunctionWithArguments rest name types

/-- FindListener from runtime.go: first listener with the given name. -/
def findListener (ls : List RuntimeListener) (name : String) :
    Option RuntimeListener :=
  ls.find? (fun v => v.Name == name)

/-- Dynamic values stored in the constant pool and in AST literal nodes
(the Go side uses an untyped interface slot). -/
inductive CPValue where
  | vInt (i : Int)
  | vLong (l : Int)
  | vStr (s : String)
  | vBool (b : Bool)
  deriving DecidableEq, Repr

/-- ConstantPoolEntry from assembler.go. -/
structure CPEntry where
  Typ : VariableType
  Value : CPValue
  deriving DecidableEq, Repr

/-- Index search used by the three pool getters (the indexed range loop). -/
def findIdxA (p : CPEntry → Bool) : List CPEntry → Nat → Option Nat
  | [], _ => none
  | e :: r, k => if p e then some k else findIdxA p r (k + 1)

/-- Shared shape of the three interning getters: linear search, append on
miss, return the index. -/
def internBy (pool : List CPEntry) (p : CPEntry → Bool) (mkE : CPEntry) :
    Nat × List CPEntry :=
  match findIdxA p pool 0 with
  | some k => (k, pool)
  | none => (pool.length, pool ++ [mkE])

/-- Match performed by ConstantPool.getInt: same type tag and equal int
value (entries are only ever created with a value matching their tag). -/
def intEntryMatch (i : Int) (e : CPEntry) : Bool :=
  e.Typ == VarTypeInt &&
    (match e.Value with
     | .vInt j => j == i
     | _ => false)

def longEntryMatch (l : Int) (e : CPEntry) : Bool :=
  e.Typ == VarTypeLong &&
    (match e.Value with
     | .vLong j => j == l
     | _ => false)

def strEntryMatch (s : String) (e : CPEntry) : Bool :=
  e.Typ == VarTypeString &&
    (match e.Value with
     | .vStr t => t == s
     | _ => false)

/-- ConstantPool.getInt from assembler.go. -/
def getInt (pool : List CPEntry) (i : Int) : Nat × List CPEntry :=
  internBy pool (intEntryMatch i) ⟨VarTypeInt, .vInt i⟩

/-- ConstantPool.getLong from assembler.go. -/
def getLong (pool : List CPEntry) (l : Int) : Nat × List CPEntry :=
  internBy pool (longEntryMatch l) ⟨VarTypeLong, .vLong l⟩

/-- ConstantPool.getString from assembler.go. -/
def getString (pool : List CPEntry) (s : String) : Nat × List CPEntry :=
  internBy pool (strEntryMatch s) ⟨VarTypeString, .vStr s⟩

/-- Token kinds from scanner.go. -/
inductive TokenType where
  | tokenEOF
  | tokenComment
  | tokenIdentifier
  | tokenOn
  | tokenProc
  | tokenIf
  | tokenElse
  | tokenLParen
  | tokenRParen
  | tokenInteger
  | tokenSemicolon
  | tokenLBrack
  | tokenRBrack
  | tokenAssign
  | tokenString
  | tokenComma
  | tokenMinus
  | tokenEqual
  | tokenNotEqual
  | tokenLessThan
  | tokenGreaterThan
  | tokenLessOrEqual
  | tokenGreaterOrEqual
  | tokenNot
  deriving DecidableEq, Repr

/-- Literal kinds carried by AST literal nodes. -/
inductive LiteralType where
  | LiteralInteger
  | LiteralLong
  | LiteralString
  | LiteralBoolean
  deriving DecidableEq, Repr

/-- Expression AST nodes. The `native` and `localM` slots of a call node are
the late-bound resolution fields mutated by the assembler (nil when the
parser creates the node). -/
inductive Expr where
  | lit (t : LiteralType) (value : CPValue)
  | ident (identifier : String)
  | call (name : String) (native : Option RuntimeFunction) (localM : Option Nat)
      (args : List Expr)
  | logical (left : Expr) (comparator : TokenType) (right : Expr)

/-- Statement AST nodes. -/
inductive Stmt where
  | block (statements : List Stmt)
  | varDecl (varType : String) (varName : String) (varValue : Option Expr)
  | ifStmt (condition : Expr) (ifTrue : Stmt) (ifFalse : Option Stmt)
  | exprStmt (e : Expr)

/-- Argument of a proc declaration. -/
structure ProcArg where
  name : String
  argtype : String
  deriving DecidableEq, Repr

/-- Top-level declarations. -/
inductive TopLevel where
  | trigger (name : String) (value : String) (statement : Stmt)
  | proc (name : String) (arguments : List ProcArg) (body : Stmt)

/-- Operand of an instruction: either a concrete int (the Go `i` field) or a
registered label patch (the Go `labelFunc` callback writing the address of
label `l` into `i`, which starts at 0). -/
inductive Operand where
  | imm (v : Int)
  | lbl (l : Nat)
  deriving DecidableEq, Repr

/-- Instruction. `lblId` identifies a label pseudo-instruction (pointer
identity in Go); it is 0 and meaningless on non-label instructions. -/
structure Instr where
  opcode : Opcode
  arg : Operand
  lblId : Nat
  deriving DecidableEq, Repr

/-- LocalVariable from assembler.go. -/
structure LocalVar where
  index : Nat
  name : String
  typ : VariableType
  deriving DecidableEq, Repr

/-- Method from assembler.go; `entryLbl` is the id of the entry label. -/
structure AsmMethod where
  name : String
  index : Nat
  instructions : List Instr
  vars : List LocalVar
  arguments : List LocalVar
  entryLbl : Nat
  lvtIndex : Nat
  deriving DecidableEq, Repr

/-- Trigger from assembler.go; `labelId` identifies the label emitted by
assembleTrigger, `value` the parsed filter value as an int64. -/
structure TriggerRec where
  name : String
  definition : RuntimeListener
  labelId : Nat
  values : List Int
  value : Int
  deriving DecidableEq, Repr

/-- Assembler from assembler.go. `nextLbl` is the supply of fresh label
identities (pointer identity in Go). -/
structure AsmState where
  methods : List AsmMethod
  triggers : List TriggerRec
  runtime : AdderRuntime
  methodIndex : Nat
  triggerIndex : Nat
  cpool : List CPEntry
  nextLbl : Nat
  deriving DecidableEq, Repr

/-- Replace the method at a position by applying a function (models writing
through the Go method pointer). -/
def updMethod : List AsmMethod → Nat → (AsmMethod → AsmMethod) → List AsmMethod
  | [], _, _ => []
  | m :: r, 0, f => f m :: r
  | m :: r, q + 1, f => m :: updMethod r q f

/-- Method.emit: append one instruction to the method at position p. -/
def emitAt (st : AsmState) (p : Nat) (ins : Instr) : AsmState :=
  let f : AsmMethod → AsmMethod :=
    fun m => { m with instructions := m.instructions ++ [ins] }
  { st with methods := updMethod st.methods p f }

/-- instr from assembler.go (operand already known). -/
def instrI (op : Opcode) (i : Int) : Instr := ⟨op, .imm i, 0⟩

/-- A label pseudo-instruction with identity l. -/
def labelInstr (l : Nat) : Instr := ⟨.op_label, .imm 0, l⟩

/-- A jump emitted with operand 0 and a patch callback registered against
label l. -/
def jumpInstr (op : Opcode) (l : Nat) : Instr := ⟨op, .lbl l, 0⟩

/-- Assembler.defineMethod: fresh index, entry label emitted, method
appended; returns the position of the new method. -/
def defineMethod (st : AsmState) (name : String) : Nat × AsmState :=
  let l := st.nextLbl
  let m : AsmMethod := ⟨name, st.methodIndex, [labelInstr l], [], [], l, 0⟩
  (st.methods.length,
   { st with
      methods := st.methods ++ [m],
      methodIndex := st.methodIndex + 1,
      nextLbl := st.nextLbl + 1 })

/-- Assembler.resolveMethod, returning the position of the first method with
the given name. -/
def resolveMethodIdx (st : AsmState) (name : String) : Option Nat :=
  st.methods.findIdx? (fun m => m.name == name)

/-- Assembler.resolveMethod, returning the method itself. -/
def resolveMethod (st : AsmState) (name : String) : Option AsmMethod :=
  st.methods.find? (fun m => m.name == name)

/-- Method.resolveVariable. -/
def resolveVariable (m : AsmMethod) (name : String) : Option LocalVar :=
  m.vars.find? (fun v => v.name == name)

/-- Method.defineVariable. -/
def defineVariablePure (m : AsmMethod) (name : String) (t : VariableType) :
    LocalVar × AsmMethod :=
  let lv : LocalVar := ⟨m.lvtIndex, name, t⟩
  (lv, { m with vars := m.vars ++ [lv], lvtIndex := m.lvtIndex + 1 })

/-- Method.TypeOfNode from assembler.go. Fails on a call node whose
late-bound resolution has not been filled in, and on every other node kind. -/
def typeOfNode (m : AsmMethod) : Expr → Except String VariableType
  | .lit t _ =>
    match t with
    | .LiteralInteger => .ok VarTypeInt
    | .LiteralLong => .ok VarTypeLong
    | .LiteralString => .ok VarTypeString
    | .LiteralBoolean => .ok VarTypeBool
  | .call name native localM _ =>
    match localM with
    | some _ => .error "local method return types not supported"
    | none =>
      match native with
      | some nm => .ok nm.ReturnType
      | none => .error ("no resolved local/native func: " ++ name)
  | .ident name =>
    match resolveVariable m name with
    | none => .error ("cannot resolve variable " ++ name)
    | some lv => .ok lv.typ
  | .logical _ _ _ => .error "cannot resolve type of node"

/-- The argument-type gathering loop of assembleMethodExpr. -/
def argTypes (m : AsmMethod) : List Expr → Except String (List VariableType)
  | [] => .ok []
  | e :: es => do
    let t ← typeOfNode m e
    let ts ← argTypes m es
    .ok (t :: ts)

/-- The comparison `n.value == "true"` from assembleLiteralExpr: a Go
interface comparison, true only when the stored value is the string "true". -/
def goEqStrTrue : CPValue → Bool
  | .vStr s => s == "true"
  | _ => false

/-- Work items of the assembler walker (assembleNode dispatch plus the two
internal list loops; arguments are assembled in reverse order). -/
inductive Node where
  | expr (e : Expr)
  | argsRev (es : List Expr)
  | stmt (s : Stmt)
  | stmts (ss : List Stmt)

/-- The assembler walker (assembleNode / assembleLiteralExpr /
assembleIdentifierExpr / assembleMethodExpr / assembleLogicalExpr /
assembleBlock / assembleVarDecl / assembleIfStmt from assembler.go), with a
fuel parameter standing for the call stack. Returns the state plus the
walked node with its late-bound fields updated (Go mutates the nodes in
place). -/
def assembleN : Nat → AsmState → Nat → Node → Except String (AsmState × Node)
  | 0, _, _, _ => .error "out of fuel"
  | Nat.succ fuel, st, p, node =>
    match node with
    | .expr (.lit t v) =>
      match t, v with
      | .LiteralString, .vStr s =>
        let r := getString st.cpool s
        .ok (emitAt { st with cpool := r.2 } p (instrI .op_pushconst r.1), node)
      | .LiteralInteger, .vInt i =>
        let r := getInt st.cpool i
        .ok (emitAt { st with cpool := r.2 } p (instrI .op_pushconst r.1), node)
      | .LiteralLong, .vLong l =>
        let r := getLong st.cpool l
        .ok (emitAt { st with cpool := r.2 } p (instrI .op_pushconst r.1), node)
      | .LiteralBoolean, vv =>
        if goEqStrTrue vv then
          let r := getInt st.cpool 1
          .ok (emitAt { st with cpool := r.2 } p (instrI .op_pushconst r.1), node)
        else
          let r := getInt st.cpool 0
          .ok (emitAt { st with cpool := r.2 } p (instrI .op_pushconst r.1), node)
      | _, _ => .error "literal value has wrong dynamic type"
    | .expr (.ident name) =>
      match st.methods.get? p with
      | none => .error "nil method"
      | some m =>
        match resolveVariable m name with
        | none => .error ("undefined variable: " ++ name)
        | some lv => .ok (emitAt st p (instrI .op_getlocal lv.index), node)
    | .expr (.call name native localM args) =>
      match st.methods.get? p with
      | none => .error "nil method"
      | some m =>
        match argTypes m args with
        | .error e => .error e
        | .ok types =>
          match findFunctionWithArguments st.runtime.Functions name types with
          | some nm =>
            match assembleN fuel st p (.argsRev args) with
            | .error e => .error e
            | .ok (st1, .argsRev args2) =>
              .ok (emitAt st1 p (instrI .op_nativecall nm.InternalId),
                   .expr (.call name (some nm) localM args2))
            | .ok _ => .error "internal"
          | none =>
            match resolveMethod st name with
            | none => .error ("Cannot resolve local or native method: " ++ name)
            | some lm =>
              match assembleN fuel st p (.argsRev args) with
              | .error e => .error e
              | .ok (st1, .argsRev args2) =>
                .ok (emitAt st1 p (instrI .op_call lm.index),
                     .expr (.call name native (some lm.index) args2))
              | .ok _ => .error "internal"
    | .expr (.logical l op r) =>
      match assembleN fuel st p (.expr l) with
      | .error e => .error e
      | .ok (st1, .expr l2) =>
        match assembleN fuel st1 p (.expr r) with
        | .error e => .error e
        | .ok (st2, .expr r2) =>
          match op with
          | .tokenEqual =>
            .ok (emitAt st2 p (instrI .op_eq 0), .expr (.logical l2 op r2))
          | _ => .error "unknown comparator node!"
        | .ok _ => .error "internal"
      | .ok _ => .error "internal"
    | .argsRev [] => .ok (st, .argsRev [])
    | .argsRev (a :: rest) =>
      match assembleN fuel st p (.argsRev rest) with
      | .error e => .error e
      | .ok (st1, .argsRev rest2) =>
        match assembleN fuel st1 p (.expr a) with
        | .error e => .error e
        | .ok (st2, .expr a2) => .ok (st2, .argsRev (a2 :: rest2))
        | .ok _ => .error "internal"
      | .ok _ => .error "internal"
    | .stmt (.block ss) =>
      match assembleN fuel st p (.stmts ss) with
      | .error e => .error e
      | .ok (st1, _) => .ok (st1, node)
    | .stmts [] => .ok (st, node)
    | .stmts (s :: ss) =>
      match assembleN fuel st p (.stmt s) with
      | .error e => .error e
      | .ok (st1, _) =>
        match assembleN fuel st1 p (.stmts ss) with
        | .error e => .error e
        | .ok (st2, _) => .ok (st2, node)
    | .stmt (.varDecl varType varName varValue) =>
      let vartype := ResolveVarType varType
      if vartype == VarTypeUnresolved then
        .error ("unresolved variable type: " ++ varType)
      else
        match st.methods.get? p with
        | none => .error "nil method"
        | some m =>
          if (resolveVariable m varName).isSome then
            .error ("variable redeclared: " ++ varName)
          else
            let pr := defineVariablePure m varName vartype
            let st1 := { st with methods := updMethod st.methods p (fun _ => pr.2) }
            match varValue with
            | none => .ok (st1, node)
            | some e =>
              match assembleN fuel st1 p (.expr e) with
              | .error msg => .error msg
              | .ok (st2, .expr e2) =>
                match st2.methods.get? p with
                | none => .error "nil method"
                | some m2 =>
                  match typeOfNode m2 e2 with
                  | .error msg => .error msg
                  | .ok exprType =>
                    if exprType != vartype then
                      .error "cannot assign value of wrong type"
                    else
                      .ok (emitAt st2 p (instrI .op_setlocal pr.1.index), node)
              | .ok _ => .error "internal"
    | .stmt (.ifStmt cond thn els) =>
      match assembleN fuel st p (.expr cond) with
      | .error e => .error e
      | .ok (st1, _) =>
        let lf := st1.nextLbl
        let le := st1.nextLbl + 1
        let st2 := { st1 with nextLbl := st1.nextLbl + 2 }
        let st3 := emitAt st2 p (jumpInstr .op_jz lf)
        match assembleN fuel st3 p (.stmt thn) with
        | .error e => .error e
        | .ok (st4, _) =>
          let st5 := emitAt st4 p (jumpInstr .op_jmp le)
          let st6 := emitAt st5 p (labelInstr lf)
          match
            (match els with
             | some s => assembleN fuel st6 p (.stmt s)
             | none => .ok (st6, node)) with
          | .error e => .error e
          | .ok (st7, _) => .ok (emitAt st7 p (labelInstr le), node)
    | .stmt (.exprStmt e) =>
      match assembleN fuel st p (.expr e) with
      | .error msg => .error msg
      | .ok (st1, _) => .ok (st1, node)

/-- Declare the parameters of a hoisted proc as locals and arguments. -/
def defineProcArgs (st : AsmState) (p : Nat) :
    List ProcArg → Except String AsmState
  | [] => .ok st
  | a :: rest =>
    let vt := ResolveVarType a.argtype
    if vt == VarTypeUnresolved then
      .error ("unresolved variable type " ++ a.argtype)
    else
      match st.methods.get? p with
      | none => .error "nil method"
      | some m =>
        let pr := defineVariablePure m a.name vt
        let m2 := { pr.2 with arguments := pr.2.arguments ++ [pr.1] }
        defineProcArgs { st with methods := updMethod st.methods p (fun _ => m2) } p rest

/-- Assembler.defineProc from assembler.go (hoisting pass). -/
def defineProcA (st : AsmState) (name : String) (arguments : List ProcArg) :
    Except String AsmState :=
  match resolveMethodIdx st name with
  | some _ => .error ("redefining method: " ++ name)
  | none =>
    let pr := defineMethod st name
    defineProcArgs pr.2 pr.1 arguments

/-- The parameter prologue of assembleProc: a SETLOCAL per argument. -/
def emitParamStores (st : AsmState) (p : Nat) (args : List LocalVar) : AsmState :=
  args.foldl (fun s a => emitAt s p (instrI .op_setlocal a.index)) st

/-- Assembler.assembleProc from assembler.go. -/
def assembleProcA (fuel : Nat) (st : AsmState) (name : String) (body : Stmt) :
    Except String AsmState :=
  match resolveMethodIdx st name with
  | none => .error "nil method"
  | some p =>
    match st.methods.get? p with
    | none => .error "nil method"
    | some m =>
      let st1 := emitParamStores st p m.arguments
      match assembleN fuel st1 p (.stmt body) with
      | .error e => .error e
      | .ok (st2, _) => .ok (emitAt st2 p (instrI .op_return 0))

/-- Digit-folding helper of parseUint64. -/
def digitsAux : List Char → Nat → Option Nat
  | [], acc => some acc
  | c :: r, acc =>
    if c.isDigit then digitsAux r (acc * 10 + (c.toNat - 48)) else none

/-- strconv.ParseUint(s, 10, 64): decimal digits only, value below 2^64. -/
def parseUint64 (s : String) : Option Nat :=
  match s.data with
  | [] => none
  | cs =>
    match digitsAux cs 0 with
    | none => none
    | some v => if v < 2 ^ 64 then some v else none

/-- The Go conversion int64(v) of a uint64 value. -/
def toI64 (v : Nat) : Int :=
  if v < 2 ^ 63 then (v : Int) else (v : Int) - 2 ^ 64

/-- Assembler.assembleTrigger from assembler.go. -/
def assembleTriggerA (fuel : Nat) (st : AsmState) (name value : String)
    (body : Stmt) : Except String AsmState :=
  match findListener st.runtime.Listeners name with
  | none => .error ("unknown trigger " ++ name ++ ", not defined in runtime")
  | some listener =>
    match parseUint64 value with
    | none => .error ("cannot parse trigger value into long: " ++ value)
    | some parsed =>
      let mname := "@" ++ name ++ "@" ++ value ++ "@" ++ toString st.triggerIndex
      let pr := defineMethod st mname
      let p := pr.1
      let st1 := { pr.2 with triggerIndex := pr.2.triggerIndex + 1 }
      let l := st1.nextLbl
      let st2 := emitAt { st1 with nextLbl := st1.nextLbl + 1 } p (labelInstr l)
      let trec : TriggerRec := ⟨name, listener, l, [toI64 parsed], toI64 parsed⟩
      let st3 := { st2 with triggers := st2.triggers ++ [trec] }
      match assembleN fuel st3 p (.stmt body) with
      | .error e => .error e
      | .ok (st4, _) => .ok (emitAt st4 p (instrI .op_return 0))

/-- Dispatch of AssembleProgram's second loop over top-level nodes. -/
def assembleTopLevel (fuel : Nat) (st : AsmState) :
    TopLevel → Except String AsmState
  | .trigger name value body => assembleTriggerA fuel st name value body
  | .proc name _ body => assembleProcA fuel st name body

/-- The proc-hoisting loop of AssembleProgram. -/
def hoistPhase (st : AsmState) : List TopLevel → Except String AsmState
  | [] => .ok st
  | .proc name args _ :: rest =>
    match defineProcA st name args with
    | .error e => .error e
    | .ok st1 => hoistPhase st1 rest
  | .trigger _ _ _ :: rest => hoistPhase st rest

/-- The body-assembly loop of AssembleProgram. -/
def walkPhase (fuel : Nat) (st : AsmState) : List TopLevel → Except String AsmState
  | [] => .ok st
  | t :: rest =>
    match assembleTopLevel fuel st t with
    | .error e => .error e
    | .ok st1 => walkPhase fuel st1 rest

/-- A fresh assembler for the given runtime. -/
def initState (rt : AdderRuntime) : AsmState := ⟨[], [], rt, 0, 0, [], 0⟩

/-- Assembler.AssembleProgram: hoist procs, then assemble every top-level
node. The address layout pass is modelled by the pure functions below. -/
def assembleProgram (fuel : Nat) (rt : AdderRuntime) (prog : List TopLevel) :
    Except String AsmState :=
  match hoistPhase (initState rt) prog with
  | .error e => .error e
  | .ok st1 => walkPhase fuel st1 prog

/-- The flat instruction stream: all methods in order (the iteration order of
the layout pass and of the encoder). -/
def flatten (st : AsmState) : List Instr :=
  (st.methods.map (fun m => m.instructions)).flatten

/-- Number of non-label instructions (the address counter only advances on
these). -/
def countNonLabel (l : List Instr) : Nat :=
  (l.filter (fun i => i.opcode != Opcode.op_label)).length

/-- The address assigned to position k by the layout pass. -/
def addrAt (l : List Instr) (k : Nat) : Nat := countNonLabel (l.take k)

/-- One pass of the layout loop, tracking the address counter and the value
last written by the patch callback of label `lab` (initially 0; each time
the label is passed its current address is written). -/
def layoutOpAux : List Instr → Nat → Int → Nat → Int
  | [], _, v, _ => v
  | ins :: rest, c, v, lab =>
    let v2 := if ins.opcode == Opcode.op_label && ins.lblId == lab then (c : Int) else v
    let c2 := if ins.opcode == Opcode.op_label then c else c + 1
    layoutOpAux rest c2 v2 lab

/-- Final operand of an instruction patched against label `lab` after the
layout pass. -/
def layoutOperand (l : List Instr) (lab : Nat) : Int := layoutOpAux l 0 0 lab

/-- Final operand of any instruction after the layout pass. -/
def patchedOperand (l : List Instr) (ins : Instr) : Int :=
  match ins.arg with
  | .imm v => v
  | .lbl lab => layoutOperand l lab

/-- Big-endian bytes of a natural number, fixed width. -/
def natToBE : Nat → Nat → List Nat
  | 0, _ => []
  | w + 1, n => natToBE w (n / 256) ++ [n % 256]

/-- binary.Write of a w-byte big-endian integer (two's complement wrap). -/
def beBytes (w : Nat) (v : Int) : List Nat :=
  natToBE w (v % ((256 : Int) ^ w)).toNat

/-- AbiVersion from binarycodec.go. -/
def AbiVersion : Nat := 3

/-- Trigger section entry of Encode. -/
def encodeTrigger (flat : List Instr) (t : TriggerRec) : List Nat :=
  beBytes 4 t.definition.InternalId ++ beBytes 4 (layoutOperand flat t.labelId) ++
    beBytes 1 (t.values.length) ++ beBytes 8 t.value

/-- Method header entry of Encode. -/
def encodeMethodHeader (flat : List Instr) (m : AsmMethod) : List Nat :=
  beBytes 2 (m.index) ++ beBytes 4 (layoutOperand flat m.entryLbl)

/-- Constant pool entry of Encode (tag bytes 0/1/2; other types panic). -/
def encodeCPEntry (e : CPEntry) : Except String (List Nat) :=
  if e.Typ == VarTypeInt then
    match e.Value with
    | .vInt i => .ok (beBytes 1 0 ++ beBytes 4 i)
    | _ => .error "interface cast"
  else if e.Typ == VarTypeLong then
    match e.Value with
    | .vLong l => .ok (beBytes 1 1 ++ beBytes 8 l)
    | _ => .error "interface cast"
  else if e.Typ == VarTypeString then
    match e.Value with
    | .vStr s => .ok (beBytes 1 2 ++ beBytes 2 (s.length) ++ s.data.map (fun c => c.toNat))
    | _ => .error "interface cast"
  else
    .error "cannot encode type"

def encodeCPool : List CPEntry → Except String (List Nat)
  | [] => .ok []
  | e :: r =>
    match encodeCPEntry e, encodeCPool r with
    | .ok b, .ok bs => .ok (b ++ bs)
    | .error msg, _ => .error msg
    | _, .error msg => .error msg

/-- Instruction encoding of Encode: opcode byte, then an i16 operand for
PUSHCONST and NATIVECALL and an i32 operand for CALL; nothing otherwise. -/
def encodeInstr (flat : List Instr) (ins : Instr) : List Nat :=
  beBytes 1 (opcodeVal ins.opcode) ++
    (if ins.opcode == Opcode.op_pushconst || ins.opcode == Opcode.op_nativecall then
       beBytes 2 (patchedOperand flat ins)
     else if ins.opcode == Opcode.op_call then
       beBytes 4 (patchedOperand flat ins)
     else [])

/-- Instruction stream section of Encode (labels are filtered out). -/
def encodeInstrs (flat : List Instr) : List Nat :=
  ((flat.filter (fun i => i.opcode != Opcode.op_label)).map (encodeInstr flat)).flatten

/-- Encode from binarycodec.go: the full container, reading the addresses
computed by the layout pass. -/
def encode (st : AsmState) : Except String (List Nat) :=
  let flat := flatten st
  match encodeCPool st.cpool with
  | .error e => .error e
  | .ok cp =>
    .ok ([AbiVersion] ++ beBytes 2 (st.triggers.length)
      ++ (st.triggers.map (encodeTrigger flat)).flatten
      ++ beBytes 2 (st.methods.length)
      ++ (st.methods.map (encodeMethodHeader flat)).flatten
      ++ beBytes 2 (st.cpool.length) ++ cp
      ++ beBytes 4 (countNonLabel flat) ++ encodeInstrs flat)

/-- Scanner state from scanner.go (the token channel is modelled as the
accumulated token list of the driver). Positions are Go ints. -/
structure ScSt where
  data : List Nat
  pos : Int
  mark : Int
  deriving DecidableEq, Repr

/-- The eof sentinel byte. -/
def eofChar : Nat := 255

def scLen (s : ScSt) : Int := (s.data.length : Int)

/-- Checked byte access; `none` models a Go index panic. -/
def scByte (s : ScSt) (k : Int) : Option Nat :=
  if 0 ≤ k ∧ k < scLen s then some (s.data.getD k.toNat 0) else none

/-- scanner.current. -/
def scCurrent (s : ScSt) : Except String Nat :=
  if s.pos ≥ scLen s then .ok eofChar
  else
    match scByte s s.pos with
    | some b => .ok b
    | none => .error "index out of range"

/-- scanner.next: returns the byte at pos and advances, or the eof sentinel
without advancing. -/
def scNext (s : ScSt) : Except String (Nat × ScSt) :=
  if s.pos ≥ scLen s then .ok (eofChar, s)
  else
    match scByte s s.pos with
    | some b => .ok (b, { s with pos := s.pos + 1 })
    | none => .error "index out of range"

/-- scanner.peek: unchecked lookahead. -/
def scPeek (s : ScSt) (num : Int) : Except String Nat :=
  match scByte s (s.pos + num) with
  | some b => .ok b
  | none => .error "index out of range"

/-- scanner.rewind. -/
def scRewind (s : ScSt) (num : Int) : ScSt := { s with pos := s.pos - num }

/-- scanner.markPosition. -/
def scMarkPosition (s : ScSt) (offset : Int) : ScSt := { s with mark := s.pos + offset }

/-- scanner.value: the slice data from mark to pos. -/
def scValue (s : ScSt) : Except String (List Nat) :=
  if 0 ≤ s.mark ∧ s.mark ≤ s.pos ∧ s.pos ≤ scLen s then
    .ok ((s.data.take s.pos.toNat).drop s.mark.toNat)
  else .error "slice bounds out of range"

/-- token from scanner.go. -/
structure GoToken where
  tokenType : TokenType
  value : List Nat
  fromPos : Int
  toPos : Int
  deriving DecidableEq, Repr

/-- scanner.makeToken: build a token over the mark..pos span; comment tokens
are not emitted. -/
def makeToken (s : ScSt) (toks : List GoToken) (t : TokenType) :
    Except String (List GoToken) :=
  match scValue s with
  | .error e => .error e
  | .ok v =>
    if t != TokenType.tokenComment then .ok (toks ++ [⟨t, v, s.mark, s.pos⟩])
    else .ok toks

/-- Whitespace characters skipped by scanAny (NUL, space, tab, LF, CR). -/
def isWsChar (c : Nat) : Bool :=
  c == 0 || c == 32 || c == 9 || c == 10 || c == 13

/-- isStartOfIdentifier from scanner.go. -/
def isStartOfIdentifier (c : Nat) : Bool :=
  (97 ≤ c && c ≤ 122) || (65 ≤ c && c ≤ 90) || c == 95 || c == 36

/-- isIdentifierChar from scanner.go. -/
def isIdentifierChar (c : Nat) : Bool :=
  (97 ≤ c && c ≤ 122) || (65 ≤ c && c ≤ 90) || (48 ≤ c && c ≤ 57) || c == 95 || c == 36

/-- isIntegerChar from scanner.go. -/
def isIntegerChar (c : Nat) : Bool := 48 ≤ c && c ≤ 57

/-- Keyword byte strings checked by scanIdentifier. -/
def kwOn : List Nat := [111, 110]
def kwProc : List Nat := [112, 114, 111, 99]
def kwIf : List Nat := [105, 102]
def kwElse : List Nat := [101, 108, 115, 101]

/-- Control points of the scanner state machine: the scanAction values of
scanner.go plus the internal loop heads of scanAny. -/
inductive ScTask where
  | any
  | anyWs (c : Nat)
  | dispatch (c : Nat)
  | identOrUnknown (c : Nat)
  | comment
  | strLit
  | strLoop
  | identLoop
  | intLit
  | intLoop
  deriving DecidableEq, Repr

/-- Result of running the scanner: Go termination (tokens collected),
runtime panic, or out of fuel (the driver fuel bounds the number of steps;
a run that exhausts every fuel never terminates). -/
inductive ScanOut where
  | done (tokens : List GoToken)
  | panicked (msg : String)
  | fuelOut
  deriving DecidableEq, Repr

/-- The scanner state machine of scanner.go: scanAny (with its whitespace
loop, operator branches and unknown-character exit), scanSingleComment,
scanString, scanIdentifier and scanIntegerLiteral. -/
def scanRun : Nat → ScSt → List GoToken → ScTask → ScanOut
  | 0, _, _, _ => .fuelOut
  | Nat.succ fuel, s, toks, task =>
    match task with
    | .any =>
      (match scCurrent s with
       | .error e => .panicked e
       | .ok c =>
         if c == eofChar then
           match makeToken s toks .tokenEOF with
           | .error e => .panicked e
           | .ok toks2 => .done toks2
         else scanRun fuel s toks (.anyWs c))
    | .anyWs c =>
      if isWsChar c then
        match scNext s with
        | .error e => .panicked e
        | .ok (_, s1) =>
          match scCurrent s1 with
          | .error e => .panicked e
          | .ok c1 => scanRun fuel s1 toks (.anyWs c1)
      else scanRun fuel (scMarkPosition s 0) toks (.dispatch c)
    | .dispatch c =>
      if c == 47 then
        match scNext s with
        | .error e => .panicked e
        | .ok (_, s1) =>
          match scPeek s1 0 with
          | .error e => .panicked e
          | .ok c1 =>
            if c1 == 47 then
              match scNext s1 with
              | .error e => .panicked e
              | .ok (_, s2) => scanRun fuel s2 toks .comment
            else scanRun fuel s1 toks (.identOrUnknown c1)
      else if c == 34 then scanRun fuel s toks .strLit
      else if c == 40 then
        match scNext s with
        | .error e => .panicked e
        | .ok (_, s1) =>
          match makeToken s1 toks .tokenLParen with
          | .error e => .panicked e
          | .ok toks2 => scanRun fuel s1 toks2 .any
      else if c == 41 then
        match scNext s with
        | .error e => .panicked e
        | .ok (_, s1) =>
          match makeToken s1 toks .tokenRParen with
          | .error e => .panicked e
          | .ok toks2 => scanRun fuel s1 toks2 .any
      else if c == 123 then
        match scNext s with
        | .error e => .panicked e
        | .ok (_, s1) =>
          match makeToken s1 toks .tokenLBrack with
          | .error e => .panicked e
          | .ok toks2 => scanRun fuel s1 toks2 .any
      else if c == 125 then
        match scNext s with
        | .error e => .panicked e
        | .ok (_, s1) =>
          match makeToken s1 toks .tokenRBrack with
          | .error e => .panicked e
          | .ok toks2 => scanRun fuel s1 toks2 .any
      else if c == 59 then
        match scNext s with
        | .error e => .panicked e
        | .ok (_, s1) =>
          match makeToken s1 toks .tokenSemicolon with
          | .error e => .panicked e
          | .ok toks2 => scanRun fuel s1 toks2 .any
      else if c == 61 then
        match scNext s with
        | .error e => .panicked e
        | .ok (_, s1) =>
          match scPeek s1 0 with
          | .error e => .panicked e
          | .ok c1 =>
            if c1 == 61 then
              match scNext s1 with
              | .error e => .panicked e
              | .ok (_, s2) =>
                match makeToken s2 toks .tokenEqual with
                | .error e => .panicked e
                | .ok toks2 => scanRun fuel s2 toks2 .any
            else
              match makeToken s1 toks .tokenAssign with
              | .error e => .panicked e
              | .ok toks2 => scanRun fuel s1 toks2 .any
      else if c == 33 then
        match scNext s with
        | .error e => .panicked e
        | .ok (c1, s1) =>
          if c1 == 61 then
            match scNext s1 with
            | .error e => .panicked e
            | .ok (_, s2) =>
              match makeToken s2 toks .tokenNotEqual with
              | .error e => .panicked e
              | .ok toks2 => scanRun fuel s2 toks2 .any
          else
            match makeToken s1 toks .tokenNot with
            | .error e => .panicked e
            | .ok toks2 => scanRun fuel s1 toks2 .any
      else if c == 60 then
        match scNext s with
        | .error e => .panicked e
        | .ok (c1, s1) =>
          if c1 == 61 then
            match scNext s1 with
            | .error e => .panicked e
            | .ok (_, s2) =>
              match makeToken s2 toks .tokenLessOrEqual with
              | .error e => .panicked e
              | .ok toks2 => scanRun fuel s2 toks2 .any
          else
            match makeToken s1 toks .tokenLessThan with
            | .error e => .panicked e
            | .ok toks2 => scanRun fuel s1 toks2 .any
      else if c == 62 then
        match scNext s with
        | .error e => .panicked e
        | .ok (c1, s1) =>
          if c1 == 61 then
            match scNext s1 with
            | .error e => .panicked e
            | .ok (_, s2) =>
              match makeToken s2 toks .tokenGreaterOrEqual with
              | .error e => .panicked e
              | .ok toks2 => scanRun fuel s2 toks2 .any
          else
            match makeToken s1 toks .tokenGreaterThan with
            | .error e => .panicked e
            | .ok toks2 => scanRun fuel s1 toks2 .any
      else if c == 44 then
        match scNext s with
        | .error e => .panicked e
        | .ok (_, s1) =>
          match makeToken s1 toks .tokenComma with
          | .error e => .panicked e
          | .ok toks2 => scanRun fuel s1 toks2 .any
      else if c == 45 then
        match scNext s with
        | .error e => .panicked e
        | .ok (_, s1) =>
          match scCurrent s1 with
          | .error e => .panicked e
          | .ok c1 =>
            if isIntegerChar c1 then scanRun fuel s1 toks .intLit
            else
              match makeToken s1 toks .tokenMinus with
              | .error e => .panicked e
              | .ok toks2 => scanRun fuel s1 toks2 .any
      else scanRun fuel s toks (.identOrUnknown c)
    | .identOrUnknown c =>
      if isStartOfIdentifier c then scanRun fuel s toks .identLoop
      else if isIntegerChar c then scanRun fuel s toks .intLit
      else
        let s1 := scRewind s 1
        if 0 ≤ s1.pos ∧ s1.pos + 10 ≤ scLen s1 then .done toks
        else .panicked "slice bounds out of range"
    | .comment =>
      (match scNext s with
       | .error e => .panicked e
       | .ok (c, s1) =>
         if c == 10 || c == eofChar then
           let s2 := scRewind s1 1
           match makeToken s2 toks .tokenComment with
           | .error e => .panicked e
           | .ok toks2 => scanRun fuel s2 toks2 .any
         else scanRun fuel s1 toks .comment)
    | .strLit =>
      (match scNext s with
       | .error e => .panicked e
       | .ok (_, s1) => scanRun fuel s1 toks .strLoop)
    | .strLoop =>
      (match scNext s with
       | .error e => .panicked e
       | .ok (c, s1) =>
         if c == 34 then
           match makeToken s1 toks .tokenString with
           | .error e => .panicked e
           | .ok toks2 => scanRun fuel s1 toks2 .any
         else scanRun fuel s1 toks .strLoop)
    | .identLoop =>
      (match scNext s with
       | .error e => .panicked e
       | .ok (c, s1) =>
         if isIdentifierChar c then scanRun fuel s1 toks .identLoop
         else
           let s2 := scRewind s1 1
           match scValue s2 with
           | .error e => .panicked e
           | .ok v =>
             let ty :=
               if v == kwOn then TokenType.tokenOn
               else if v == kwProc then TokenType.tokenProc
               else if v == kwIf then TokenType.tokenIf
               else if v == kwElse then TokenType.tokenElse
               else TokenType.tokenIdentifier
             match makeToken s2 toks ty with
             | .error e => .panicked e
             | .ok toks2 => scanRun fuel s2 toks2 .any)
    | .intLit =>
      (match scCurrent s with
       | .error e => .panicked e
       | .ok c =>
         if c == 45 then
           match scNext s with
           | .error e => .panicked e
           | .ok (_, s1) => scanRun fuel s1 toks .intLoop
         else scanRun fuel s toks .intLoop)
    | .intLoop =>
      (match scNext s with
       | .error e => .panicked e
       | .ok (c, s1) =>
         if isIntegerChar c then scanRun fuel s1 toks .intLoop
         else
           let s2 := scRewind s1 1
           match makeToken s2 toks .tokenInteger with
           | .error e => .panicked e
           | .ok toks2 => scanRun fuel s2 toks2 .any)

/-- ScanText from scanner.go, fuel-indexed. -/
def scanTextModel (data : List Nat) (fuel : Nat) : ScanOut :=
  scanRun fuel ⟨data, 0, 0⟩ [] .any

/-- Decimal digit fold of strconv.ParseInt (base 10). -/
def decValAux : List Nat → Nat → Option Nat
  | [], acc => some acc
  | d :: r, acc =>
    if 48 ≤ d ∧ d ≤ 57 then decValAux r (acc * 10 + (d - 48)) else none

/-- strconv.ParseInt(s, 10, 64) over the token bytes: optional sign, one or
more decimal digits, value within the signed 64-bit range. -/
def goParseInt64 (s : List Nat) : Option Int :=
  match s with
  | [] => none
  | 43 :: rest =>
    match rest with
    | [] => none
    | _ =>
      match decValAux rest 0 with
      | none => none
      | some v => if (v : Int) ≤ 2 ^ 63 - 1 then some (v : Int) else none
  | 45 :: rest =>
    match rest with
    | [] => none
    | _ =>
      match decValAux rest 0 with
      | none => none
      | some v => if (v : Int) ≤ 2 ^ 63 then some (-(v : Int)) else none
  | _ =>
    match decValAux s 0 with
    | none => none
    | some v => if (v : Int) ≤ 2 ^ 63 - 1 then some (v : Int) else none

/-- The tokenInteger case of parseTerminalExpression (parser.go): parse as
int64, then pick Int64 or Int32 literal by comparing against MaxInt32 and
MinInt32. -/
def parseIntegerCase (s : List Nat) : Except String Expr :=
  match goParseInt64 s with
  | none => .error "error parsing int value from string"
  | some v =>
    if v > 2147483647 ∨ v < -2147483648 then .ok (.lit .LiteralLong (.vLong v))
    else .ok (.lit .LiteralInteger (.vInt v))

/-- The tokenBool case of parseTerminalExpression (parser.go): the literal
value is the Go boolean `tokenValue == "true"`. -/
def parseBoolCase (tokValue : List Nat) : Expr :=
  .lit .LiteralBoolean (.vBool (tokValue == [116, 114, 117, 101]))

/-- Exact-match predicate of native overload resolution: same name and the
declared parameter types positionally equal to the argument types. -/
def FnMatches (v : RuntimeFunction) (name : String) (types : List VariableType) : Prop :=
  v.Name = name ∧ v.Parameters.map (fun q => q.Typ) = types

/-- Interning requests: the three operations of the constant pool. -/
inductive InternReq where
  | rint (i : Int)
  | rlong (l : Int)
  | rstr (s : String)
  deriving DecidableEq, Repr

/-- Apply one interning request. -/
def applyReq (pool : List CPEntry) : InternReq → Nat × List CPEntry
  | .rint i => getInt pool i
  | .rlong l => getLong pool l
  | .rstr s => getString pool s

/-- Apply a sequence of interning requests, keeping only the pool. -/
def applyReqs (pool : List CPEntry) (rs : List InternReq) : List CPEntry :=
  rs.foldl (fun acc r => (applyReq acc r).2) pool

/-- The entry a request would create. -/
def reqEntry : InternReq → CPEntry
  | .rint i => ⟨VarTypeInt, .vInt i⟩
  | .rlong l => ⟨VarTypeLong, .vLong l⟩
  | .rstr s => ⟨VarTypeString, .vStr s⟩

/-- The match predicate a request searches with. -/
def reqPred : InternReq → CPEntry → Bool
  | .rint i => intEntryMatch i
  | .rlong l => longEntryMatch l
  | .rstr s => strEntryMatch s

/-- No two pool entries agree on both type and value. -/
def PoolWF (pool : List CPEntry) : Prop :=
  pool.Pairwise (fun e1 e2 => ¬(e1.Typ = e2.Typ ∧ e1.Value = e2.Value))

/-- Label identities occurring in a list of instructions. -/
def labelIds (l : List Instr) : List Nat :=
  (l.filter (fun i => i.opcode == Opcode.op_label)).map (fun i => i.lblId)

/-- Well-formedness of an instruction suffix emitted by one walker call:
labels are fresh (ids in [a, b)) and mutually distinct, every emitted jump
is patched against a label emitted in the same suffix, and every emitted
PUSHCONST indexes below the final pool length cl. -/
def SufOK (a b cl : Nat) (suf : List Instr) : Prop :=
  (labelIds suf).Nodup ∧
  (∀ t ∈ labelIds suf, a ≤ t ∧ t < b) ∧
  (∀ ins ∈ suf, (ins.opcode = Opcode.op_jz ∨ ins.opcode = Opcode.op_jmp) →
    ∃ t, ins.arg = .lbl t ∧ t ∈ labelIds suf) ∧
  (∀ ins ∈ suf, ins.opcode = Opcode.op_pushconst →
    ∃ k : Nat, ins.arg = .imm (k : Int) ∧ k < cl)

/-- Effect of one walker call on the assembler state: only the active
method p changes, and only by appending instructions (and locals); the pool
only grows; label identities only move forward; the appended suffix is
well-formed. -/
def StEff (st : AsmState) (p : Nat) (st' : AsmState) : Prop :=
  st'.runtime = st.runtime ∧
  st'.triggers = st.triggers ∧
  st'.triggerIndex = st.triggerIndex ∧
  st'.methodIndex = st.methodIndex ∧
  st.nextLbl ≤ st'.nextLbl ∧
  (∃ ce, st'.cpool = st.cpool ++ ce) ∧
  (∀ pre m post, st.methods = pre ++ m :: post → pre.length = p →
    ∃ m2 suf, st'.methods = pre ++ m2 :: post ∧
      m2.instructions = m.instructions ++ suf ∧
      m2.name = m.name ∧ m2.index = m.index ∧ m2.entryLbl = m.entryLbl ∧
      m2.arguments = m.arguments ∧
      (∃ vext, m2.vars = m.vars ++ vext) ∧
      SufOK st.nextLbl st'.nextLbl st'.cpool.length suf) ∧
  (st.methods.length ≤ p → st'.methods = st.methods)

/-- Weak jump invariant of a method: every jump is patched against a label
present in the same method. -/
def JInvW (m : AsmMethod) : Prop :=
  ∀ ins ∈ m.instructions, (ins.opcode = Opcode.op_jz ∨ ins.opcode = Opcode.op_jmp) →
    ∃ t, ins.arg = .lbl t ∧
      ∃ k ins2, m.instructions.get? k = some ins2 ∧
        ins2.opcode = Opcode.op_label ∧ ins2.lblId = t

/-- Full jump invariant of a method: additionally, some non-label
instruction follows the label within the method. -/
def JInv (m : AsmMethod) : Prop :=
  ∀ ins ∈ m.instructions, (ins.opcode = Opcode.op_jz ∨ ins.opcode = Opcode.op_jmp) →
    ∃ t, ins.arg = .lbl t ∧
      ∃ k ins2, m.instructions.get? k = some ins2 ∧
        ins2.opcode = Opcode.op_label ∧ ins2.lblId = t ∧
        ∃ j ins3, k < j ∧ m.instructions.get? j = some ins3 ∧
          ins3.opcode ≠ Opcode.op_label

/-- Pushconst bound invariant of a method against a pool length. -/
def PushInv (cl : Nat) (m : AsmMethod) : Prop :=
  ∀ ins ∈ m.instructions, ins.opcode = Opcode.op_pushconst →
    ∃ k : Nat, ins.arg = .imm (k : Int) ∧ k < cl

/-- Global assembler invariant: label identities are globally distinct and
below the supply, every jump resolves inside its own method with a
non-label instruction after its target, and every PUSHCONST operand indexes
into the pool. -/
def GInv (st : AsmState) : Prop :=
  (labelIds (flatten st)).Nodup ∧
  (∀ t ∈ labelIds (flatten st), t < st.nextLbl) ∧
  (∀ m ∈ st.methods, JInv m) ∧
  (∀ m ∈ st.methods, PushInv st.cpool.length m)

/-- The flat instruction stream of a method list. -/
def flatJoin (ms : List AsmMethod) : List Instr :=
  (ms.map (fun m => m.instructions)).flatten

/-- Global assembler invariant holding mid-toplevel: method p (the active
method, still awaiting its final RETURN) satisfies only the weak jump
invariant; every other method satisfies the full one. -/
def GInvAt (st : AsmState) (p : Nat) : Prop :=
  (labelIds (flatten st)).Nodup ∧
  (∀ t ∈ labelIds (flatten st), t < st.nextLbl) ∧
  (∀ q m, st.methods.get? q = some m → (q = p → JInvW m) ∧ (q ≠ p → JInv m)) ∧
  (∀ m ∈ st.methods, PushInv st.cpool.length m)

/-- Empty runtime used by the layout example. -/
def c5wrt : AdderRuntime := ⟨[], []⟩

/-- Example program with one if statement (a JZ and a JMP). -/
def c5wprog : List TopLevel :=
  [TopLevel.proc "p" []
    (Stmt.ifStmt (Expr.lit LiteralType.LiteralInteger (CPValue.vInt 1)) (Stmt.block []) none)]

/-- The JZ instruction assembled for the example if statement. -/
def c5wjz : Instr := ⟨Opcode.op_jz, Operand.lbl 1, 0⟩

/-- The assembler state produced for the example program. -/
def c5wst : AsmState :=
  ⟨[⟨"p", 0,
     [⟨Opcode.op_label, Operand.imm 0, 0⟩,
      ⟨Opcode.op_pushconst, Operand.imm 0, 0⟩,
      ⟨Opcode.op_jz, Operand.lbl 1, 0⟩,
      ⟨Opcode.op_jmp, Operand.lbl 2, 0⟩,
      ⟨Opcode.op_label, Operand.imm 0, 1⟩,
      ⟨Opcode.op_label, Operand.imm 0, 2⟩,
      ⟨Opcode.op_return, Operand.imm 0, 0⟩],
     [], [], 0, 0⟩],
   [], ⟨[], []⟩, 1, 0,
   [⟨VarTypeInt, CPValue.vInt 1⟩], 3⟩

/-- Empty runtime used by the pushconst example. -/
def c10wrt : AdderRuntime := ⟨[], []⟩

/-- Example program with an initialised variable declaration (a
PUSHCONST). -/
def c10wprog : List TopLevel :=
  [TopLevel.proc "q" []
    (Stmt.block [Stmt.varDecl "int" "x"
      (some (Expr.lit LiteralType.LiteralInteger (CPValue.vInt 1)))])]

/-- The method assembled for the pushconst example. -/
def c10wm : AsmMethod :=
  ⟨"q", 0,
   [⟨Opcode.op_label, Operand.imm 0, 0⟩,
    ⟨Opcode.op_pushconst, Operand.imm 0, 0⟩,
    ⟨Opcode.op_setlocal, Operand.imm 0, 0⟩,
    ⟨Opcode.op_return, Operand.imm 0, 0⟩],
   [⟨0, "x", VarTypeInt⟩], [], 0, 1⟩

/-- The assembler state produced for the pushconst example. -/
def c10wst : AsmState :=
  ⟨[c10wm], [], ⟨[], []⟩, 1, 0, [⟨VarTypeInt, CPValue.vInt 1⟩], 1⟩

/-- The PUSHCONST instruction of the pushconst example. -/
def c10wpush : Instr := ⟨Opcode.op_pushconst, Operand.imm 0, 0⟩

/-- Helper: once the scanner's string loop reaches the end of the input, it
makes no further progress: next() keeps returning the eof sentinel without
advancing, the sentinel is not a closing quote, and the loop repeats in the
same state, for every fuel. -/
theorem strLoopStuckEnd : ∀ (n : Nat) (s : ScSt) (toks : List GoToken),
    scLen s ≤ s.pos → scanRun n s toks .strLoop = .fuelOut := by
  intro n
  induction n with
  | zero => intro s toks _; rfl
  | succ n ih =>
    intro s toks h
    have hnext : scNext s = .ok (eofChar, s) := by
      unfold scNext
      rw [if_pos (by omega)]
    show scanRun (n + 1) s toks .strLoop = .fuelOut
    unfold scanRun
    rw [hnext]
    show scanRun n s toks .strLoop = .fuelOut
    exact ih s toks h

/-- C9: a string literal with an opening quote but no closing quote does not
make the scanner stop with a lex error: scanning the four-byte source
`"abc` runs out of any amount of fuel (the scanString loop never
terminates), so ScanText never returns. -/
theorem c9_unterminated_string_scan_never_terminates :
    ∀ fuel : Nat, scanTextModel [34, 97, 98, 99] fuel = .fuelOut := fun fuel =>
  match fuel with
  | 0 => rfl
  | 1 => rfl
  | 2 => rfl
  | 3 => rfl
  | 4 => rfl
  | 5 => rfl
  | 6 => rfl
  | n + 7 =>
    strLoopStuckEnd n ⟨[34, 97, 98, 99], 4, 0⟩ [] (by norm_num [scLen])

/-- C2: the scanner never fuses `!=`, `<=`, `>=` into NOT_EQUAL, LESS_EQ,
GREATER_EQ: in each operator branch `c = s.next()` re-reads the operator
character itself, so the `=` comparison always fails. Scanning `!=;`,
`<=;`, `>=;` yields the single-character token followed by ASSIGN, even
though `=` follows. -/
theorem c2_scanner_never_fuses_two_char_operators :
    scanTextModel [33, 61, 59] 30 =
      .done [⟨.tokenNot, [33], 0, 1⟩, ⟨.tokenAssign, [61], 1, 2⟩,
             ⟨.tokenSemicolon, [59], 2, 3⟩, ⟨.tokenEOF, [59], 2, 3⟩] ∧
    scanTextModel [60, 61, 59] 30 =
      .done [⟨.tokenLessThan, [60], 0, 1⟩, ⟨.tokenAssign, [61], 1, 2⟩,
             ⟨.tokenSemicolon, [59], 2, 3⟩, ⟨.tokenEOF, [59], 2, 3⟩] ∧
    scanTextModel [62, 61, 59] 30 =
      .done [⟨.tokenGreaterThan, [62], 0, 1⟩, ⟨.tokenAssign, [61], 1, 2⟩,
             ⟨.tokenSemicolon, [59], 2, 3⟩, ⟨.tokenEOF, [59], 2, 3⟩] :=
  ⟨rfl, rfl, rfl⟩

/-- C3: lowering the boolean literal `true` (which the parser stores as the
Go boolean true, not the string "true") emits PUSHCONST of the pool index
of Int32 value 0, because the assembler's comparison of the literal value
against the string "true" is always false on a boolean. -/
theorem c3_true_literal_lowering_interns_zero :
    parseBoolCase [116, 114, 117, 101] = .lit .LiteralBoolean (.vBool true) ∧
    assembleN 1 (⟨[⟨"p", 0, [], [], [], 0, 0⟩], [], ⟨[], []⟩, 1, 0, [], 1⟩ : AsmState) 0
        (.expr (parseBoolCase [116, 114, 117, 101])) =
      .ok (⟨[⟨"p", 0, [instrI .op_pushconst 0], [], [], 0, 0⟩], [], ⟨[], []⟩, 1, 0,
            [⟨VarTypeInt, .vInt 0⟩], 1⟩, .expr (parseBoolCase [116, 114, 117, 101])) :=
  ⟨rfl, rfl⟩

/-- C1: the encoded instruction stream carries no operand bytes for
GETLOCAL, SETLOCAL, JZ and JMP: each encodes to its opcode byte alone
(only PUSHCONST/NATIVECALL get an i16 and CALL an i32 operand). Compiling
`proc p(int a) ( )` yields the stream `03 04`: the SETLOCAL opcode byte is
immediately followed by the RETURN opcode byte, with no i16 operand. -/
theorem c1_encoded_stream_drops_local_and_jump_operands :
    encodeInstr [] (instrI .op_getlocal 1) = [2] ∧
    encodeInstr [] (instrI .op_setlocal 1) = [3] ∧
    encodeInstr [] (⟨.op_jz, .imm 7, 0⟩ : Instr) = [5] ∧
    encodeInstr [] (⟨.op_jmp, .imm 7, 0⟩ : Instr) = [1] ∧
    (assembleProgram 10 ⟨[], []⟩ [.proc "p" [⟨"a", "int"⟩] (.block [])]).map encode =
      .ok (.ok [3, 0, 0, 0, 1, 0, 0, 0, 0, 0, 0, 0, 0, 0, 0, 0, 2, 3, 4]) :=
  ⟨rfl, rfl, rfl, rfl, rfl⟩

/-- C4 counterexample: the first byte of the encoded output of the empty
program is 3, not 4. -/
theorem c4_first_byte_counterexample :
    ∃ st bs, assembleProgram 10 ⟨[], []⟩ [] = .ok st ∧ encode st = .ok bs ∧
      bs.head? = some 3 ∧ ¬ bs.head? = some 4 :=
  ⟨initState ⟨[], []⟩, [3, 0, 0, 0, 0, 0, 0, 0, 0, 0, 0], rfl, rfl, rfl, by simp⟩

/-- C4 amended: the first byte of every successfully encoded `.abf` output
is the ABI version byte, whose value is 3. -/
theorem c4_amended_first_byte_is_abi_version_three :
    ∀ (st : AsmState) (bs : List Nat), encode st = .ok bs →
      bs.head? = some AbiVersion ∧ AbiVersion = 3 := by
  intro st bs h
  unfold encode at h
  cases hcp : encodeCPool st.cpool with
  | error e => rw [hcp] at h; exact absurd h (by simp)
  | ok cp =>
    rw [hcp] at h
    have : bs = [AbiVersion] ++ _ := (Except.ok.injEq _ _).mp h.symm
    refine ⟨?_, rfl⟩
    rw [this]
    rfl

/-- Witness for the amended C4 theorem at the empty program. -/
theorem c4_amended_witness :
    ∃ bs, encode (initState ⟨[], []⟩) = .ok bs ∧
      bs.head? = some AbiVersion ∧ AbiVersion = 3 :=
  ⟨[3, 0, 0, 0, 0, 0, 0, 0, 0, 0, 0], rfl,
    c4_amended_first_byte_is_abi_version_three (initState ⟨[], []⟩) _ rfl⟩

/-- C8: the parser produces an Int64 literal exactly when the parsed value
of a decimal integer token lies outside the signed 32-bit range, and an
Int32 literal otherwise; in particular 2147483648 = 2^31 becomes Int64 and
2147483647 = 2^31 - 1 becomes Int32. -/
theorem c8_integer_literal_width_selection :
    (∀ (s : List Nat) (v : Int), goParseInt64 s = some v →
      ((parseIntegerCase s = .ok (.lit .LiteralLong (.vLong v))) ↔
        (v < -(2 ^ 31) ∨ (2 ^ 31 - 1 : Int) < v)) ∧
      ((parseIntegerCase s = .ok (.lit .LiteralInteger (.vInt v))) ↔
        (-(2 ^ 31) ≤ v ∧ v ≤ (2 ^ 31 - 1 : Int)))) ∧
    parseIntegerCase [50, 49, 52, 55, 52, 56, 51, 54, 52, 56] =
      .ok (.lit .LiteralLong (.vLong 2147483648)) ∧
    ((2147483648 : Int) = 2 ^ 31) ∧
    parseIntegerCase [50, 49, 52, 55, 52, 56, 51, 54, 52, 55] =
      .ok (.lit .LiteralInteger (.vInt 2147483647)) ∧
    ((2147483647 : Int) = 2 ^ 31 - 1) := by
  have e1 : ((2 : Int) ^ 31) = 2147483648 := by norm_num
  refine ⟨?_, rfl, by norm_num, rfl, by norm_num⟩
  intro s v h
  simp only [parseIntegerCase, h]
  by_cases hb : v > 2147483647 ∨ v < -2147483648
  · rw [if_pos hb]
    constructor
    · constructor
      · intro _; rw [e1]; omega
      · intro _; rfl
    · constructor
      · intro heq; simp at heq
      · intro hr; rw [e1] at hr; omega
  · rw [if_neg hb]
    push_neg at hb
    constructor
    · constructor
      · intro heq; simp at heq
      · intro hr; rw [e1] at hr; omega
    · constructor
      · intro _; rw [e1]; omega
      · intro _; rfl

/-- Witness for C8 at the token "5". -/
theorem c8_width_selection_witness :
    ((parseIntegerCase [53] = .ok (.lit .LiteralLong (.vLong 5))) ↔
      ((5 : Int) < -(2 ^ 31) ∨ (2 ^ 31 - 1 : Int) < 5)) ∧
    ((parseIntegerCase [53] = .ok (.lit .LiteralInteger (.vInt 5))) ↔
      (-(2 ^ 31) ≤ (5 : Int) ∧ (5 : Int) ≤ (2 ^ 31 - 1 : Int))) :=
  c8_integer_literal_width_selection.1 [53] 5 rfl

/-- findIdxA reports indices within the searched range. -/
theorem findIdxA_bounds : ∀ (p : CPEntry → Bool) (l : List CPEntry) (n k : Nat),
    findIdxA p l n = some k → n ≤ k ∧ k < n + l.length := by
  intro p l
  induction l with
  | nil => intro n k h; exact absurd h (by simp [findIdxA])
  | cons e r ih =>
    intro n k h
    simp only [findIdxA] at h
    by_cases hp : p e = true
    · rw [if_pos hp] at h
      have : n = k := by simpa using h
      subst this
      refine ⟨le_refl n, ?_⟩
      rw [List.length_cons]
      omega
    · rw [if_neg hp] at h
      have := ih (n + 1) k h
      refine ⟨by omega, ?_⟩
      rw [List.length_cons]
      omega

/-- A successful search is unaffected by appending entries. -/
theorem findIdxA_append_some : ∀ (p : CPEntry → Bool) (l l2 : List CPEntry) (n k : Nat),
    findIdxA p l n = some k → findIdxA p (l ++ l2) n = some k := by
  intro p l
  induction l with
  | nil => intro l2 n k h; exact absurd h (by simp [findIdxA])
  | cons e r ih =>
    intro l2 n k h
    simp only [findIdxA] at h
    simp only [List.cons_append, findIdxA, List.append_eq]
    by_cases hp : p e = true
    · rw [if_pos hp] at h ⊢; exact h
    · rw [if_neg hp] at h ⊢; exact ih l2 (n + 1) k h

/-- A failed search continues into the appended part with shifted index. -/
theorem findIdxA_append_none : ∀ (p : CPEntry → Bool) (l l2 : List CPEntry) (n : Nat),
    findIdxA p l n = none → findIdxA p (l ++ l2) n = findIdxA p l2 (n + l.length) := by
  intro p l
  induction l with
  | nil => intro l2 n _; simp [findIdxA]
  | cons e r ih =>
    intro l2 n h
    simp only [findIdxA] at h
    simp only [List.cons_append, findIdxA, List.append_eq]
    by_cases hp : p e = true
    · rw [if_pos hp] at h; exact absurd h (by simp)
    · rw [if_neg hp] at h ⊢
      rw [ih l2 (n + 1) h]
      congr 1
      rw [List.length_cons]
      omega

/-- A failed search means no entry matches. -/
theorem findIdxA_none_all : ∀ (p : CPEntry → Bool) (l : List CPEntry) (n : Nat),
    findIdxA p l n = none → ∀ e ∈ l, p e = false := by
  intro p l
  induction l with
  | nil => intro n _ e he; exact absurd he (by simp)
  | cons e0 r ih =>
    intro n h e he
    simp only [findIdxA] at h
    by_cases hp : p e0 = true
    · rw [if_pos hp] at h; exact absurd h (by simp)
    · rw [if_neg hp] at h
      rcases List.mem_cons.mp he with h1 | h1
      · subst h1; simpa using hp
      · exact ih (n + 1) h e h1

/-- Every request entry matches its own predicate. -/
theorem reqPred_reqEntry : ∀ r : InternReq, reqPred r (reqEntry r) = true := by
  intro r
  cases r <;> simp [reqPred, reqEntry, intEntryMatch, longEntryMatch, strEntryMatch]

/-- The request predicate holds exactly on entries that agree with the
request entry on both type and value. -/
theorem reqPred_iff : ∀ (r : InternReq) (e : CPEntry),
    reqPred r e = true ↔ (e.Typ = (reqEntry r).Typ ∧ e.Value = (reqEntry r).Value) := by
  intro r e
  obtain ⟨t, v⟩ := e
  cases r <;> cases v <;>
    simp [reqPred, reqEntry, intEntryMatch, longEntryMatch, strEntryMatch]

/-- applyReq is internBy at the request predicate and entry. -/
theorem applyReq_eq_internBy : ∀ (pool : List CPEntry) (r : InternReq),
    applyReq pool r = internBy pool (reqPred r) (reqEntry r) := by
  intro pool r
  cases r <;> rfl

/-- Interning only appends. -/
theorem internBy_ext (pool : List CPEntry) (p : CPEntry → Bool) (mkE : CPEntry) :
    ∃ ext, (internBy pool p mkE).2 = pool ++ ext := by
  unfold internBy
  cases h : findIdxA p pool 0 with
  | some k => exact ⟨[], by simp⟩
  | none => exact ⟨[mkE], rfl⟩

/-- After interning, the predicate finds the returned index. -/
theorem internBy_idx_found (pool : List CPEntry) (p : CPEntry → Bool) (mkE : CPEntry)
    (hm : p mkE = true) :
    findIdxA p (internBy pool p mkE).2 0 = some (internBy pool p mkE).1 := by
  unfold internBy
  cases h : findIdxA p pool 0 with
  | some k => simpa using h
  | none =>
    simp only
    rw [findIdxA_append_none p pool [mkE] 0 h]
    simp [findIdxA, hm]

/-- When the predicate already finds an index, interning is the identity. -/
theorem internBy_of_found (pool : List CPEntry) (p : CPEntry → Bool) (mkE : CPEntry)
    (k : Nat) (h : findIdxA p pool 0 = some k) : internBy pool p mkE = (k, pool) := by
  unfold internBy
  rw [h]

/-- A request sequence only appends to the pool. -/
theorem applyReqs_ext : ∀ (rs : List InternReq) (pool : List CPEntry),
    ∃ ext, applyReqs pool rs = pool ++ ext := by
  intro rs
  induction rs with
  | nil => intro pool; exact ⟨[], by simp [applyReqs]⟩
  | cons r rs ih =>
    intro pool
    have h1 : applyReqs pool (r :: rs) = applyReqs (applyReq pool r).2 rs := by
      simp [applyReqs]
    obtain ⟨e1, he1⟩ := internBy_ext pool (reqPred r) (reqEntry r)
    obtain ⟨e2, he2⟩ := ih (applyReq pool r).2
    refine ⟨e1 ++ e2, ?_⟩
    rw [h1, he2, applyReq_eq_internBy, he1, List.append_assoc]

/-- Interning preserves pairwise distinctness of (type, value). -/
theorem PoolWF_applyReq (pool : List CPEntry) (r : InternReq) (hwf : PoolWF pool) :
    PoolWF (applyReq pool r).2 := by
  rw [applyReq_eq_internBy]
  unfold internBy
  cases h : findIdxA (reqPred r) pool 0 with
  | some k => exact hwf
  | none =>
    simp only
    unfold PoolWF
    rw [List.pairwise_append]
    refine ⟨hwf, by simp, ?_⟩
    intro a ha b hb hab
    have hb2 : b = reqEntry r := by simpa using hb
    subst hb2
    have : reqPred r a = true := (reqPred_iff r a).mpr hab
    have := findIdxA_none_all (reqPred r) pool 0 h a ha
    simp_all

/-- A request sequence preserves pairwise distinctness. -/
theorem PoolWF_applyReqs : ∀ (rs : List InternReq) (pool : List CPEntry),
    PoolWF pool → PoolWF (applyReqs pool rs) := by
  intro rs
  induction rs with
  | nil => intro pool h; simpa [applyReqs] using h
  | cons r rs ih =>
    intro pool h
    have h1 : applyReqs pool (r :: rs) = applyReqs (applyReq pool r).2 rs := by
      simp [applyReqs]
    rw [h1]
    exact ih _ (PoolWF_applyReq pool r h)

/-- C6: constant-pool interning is idempotent and deduplicating. Starting
from the empty pool, after any request prefix rs, interning (t, v) returns
some index k; interleaving any further requests rs2 and interning (t, v)
again still returns k. Moreover, after any sequence of interning calls the
pool has no two entries agreeing on both type and value. -/
theorem c6_intern_idempotent_and_dedup :
    ∀ (rs : List InternReq) (r : InternReq) (rs2 : List InternReq),
      (applyReq (applyReqs (applyReq (applyReqs [] rs) r).2 rs2) r).1 =
        (applyReq (applyReqs [] rs) r).1 ∧
      PoolWF (applyReqs [] rs) := by
  intro rs r rs2
  constructor
  · have hm := reqPred_reqEntry r
    have hf := internBy_idx_found (applyReqs [] rs) (reqPred r) (reqEntry r) hm
    obtain ⟨ext, hext⟩ :=
      applyReqs_ext rs2 (applyReq (applyReqs [] rs) r).2
    rw [applyReq_eq_internBy (applyReqs [] rs) r] at hext
    have hstable :
        findIdxA (reqPred r)
          ((internBy (applyReqs [] rs) (reqPred r) (reqEntry r)).2 ++ ext) 0 =
          some (internBy (applyReqs [] rs) (reqPred r) (reqEntry r)).1 :=
      findIdxA_append_some _ _ _ _ _ hf
    rw [applyReq_eq_internBy (applyReqs [] rs) r, hext,
      applyReq_eq_internBy _ r,
      internBy_of_found _ _ _ _ hstable]
  · exact PoolWF_applyReqs rs [] (by simp [PoolWF])

/-- The arity guard plus the positional type loop succeed exactly when the
declared parameter types equal the argument types as lists. -/
theorem paramTypesEq_iff : ∀ (ps : List FunctionParameter) (ts : List VariableType),
    ((ps.length == ts.length) && paramTypesEq ps ts) = true ↔
      ps.map (fun q => q.Typ) = ts := by
  intro ps
  induction ps with
  | nil =>
    intro ts
    cases ts <;> simp [paramTypesEq]
  | cons p ps ih =>
    intro ts
    cases ts with
    | nil => simp [paramTypesEq]
    | cons t ts =>
      have := ih ts
      simp only [List.length_cons, List.map_cons, Bool.and_eq_true, beq_iff_eq,
        paramTypesEq, List.cons.injEq] at this ⊢
      constructor
      · rintro ⟨hlen, hpt, hrest⟩
        exact ⟨hpt, this.mp ⟨by omega, hrest⟩⟩
      · rintro ⟨hpt, hrest⟩
        obtain ⟨hlen, hr⟩ := this.mpr hrest
        exact ⟨by omega, hpt, hr⟩

/-- C7: native overload resolution finds a function exactly when the
manifest contains one with the same name and positionally equal parameter
types (no conversion), and the function found is the first such in
declaration order. -/
theorem c7_native_resolution_exact_first_match :
    ∀ (fns : List RuntimeFunction) (name : String) (types : List VariableType),
      ((findFunctionWithArguments fns name types).isSome ↔
        ∃ v ∈ fns, FnMatches v name types) ∧
      (∀ f, findFunctionWithArguments fns name types = some f →
        FnMatches f name types ∧
          ∃ l1 l2, fns = l1 ++ f :: l2 ∧ ∀ g ∈ l1, ¬ FnMatches g name types) := by
  intro fns name types
  induction fns with
  | nil => simp [findFunctionWithArguments]
  | cons v rest ih =>
    have hcond :
        ((v.Name == name && (v.Parameters.length == types.length &&
            paramTypesEq v.Parameters types)) = true) ↔ FnMatches v name types := by
      rw [Bool.and_eq_true, beq_iff_eq, paramTypesEq_iff]
      exact Iff.rfl
    by_cases hv : (v.Name == name && (v.Parameters.length == types.length &&
        paramTypesEq v.Parameters types)) = true
    · have heq : findFunctionWithArguments (v :: rest) name types = some v := by
        simp only [findFunctionWithArguments]
        rw [if_pos (by simpa [Bool.and_assoc] using hv)]
      constructor
      · rw [heq]
        simp only [Option.isSome_some, true_iff]
        exact ⟨v, List.mem_cons_self v rest, hcond.mp hv⟩
      · intro f hf
        rw [heq] at hf
        have : v = f := by simpa using hf
        subst this
        exact ⟨hcond.mp hv, [], rest, rfl, by simp⟩
    · have hnm : ¬ FnMatches v name types := fun hm => hv (hcond.mpr hm)
      have heq : findFunctionWithArguments (v :: rest) name types =
          findFunctionWithArguments rest name types := by
        simp only [findFunctionWithArguments]
        rw [if_neg (by simpa [Bool.and_assoc] using hv)]
      constructor
      · rw [heq, ih.1]
        constructor
        · rintro ⟨w, hw, hmw⟩
          exact ⟨w, List.mem_cons_of_mem v hw, hmw⟩
        · rintro ⟨w, hw, hmw⟩
          rcases List.mem_cons.mp hw with h1 | h1
          · subst h1; exact absurd hmw hnm
          · exact ⟨w, h1, hmw⟩
      · intro f hf
        rw [heq] at hf
        obtain ⟨hm, l1, l2, hdec, hnone⟩ := ih.2 f hf
        refine ⟨hm, v :: l1, l2, by rw [hdec]; simp, ?_⟩
        intro g hg
        rcases List.mem_cons.mp hg with h1 | h1
        · subst h1; exact hnm
        · exact hnone g h1

/-- Witness for C7: with two overloads foo(int) id 10 and foo(int, string)
id 11, resolving foo on (int, string) picks id 11, the first (and only)
exact match. -/
theorem c7_resolution_witness :
    FnMatches ⟨VarTypeVoid, "foo", [⟨VarTypeInt, "a"⟩, ⟨VarTypeString, "b"⟩], 11⟩
        "foo" [VarTypeInt, VarTypeString] ∧
      ∃ l1 l2,
        [(⟨VarTypeVoid, "foo", [⟨VarTypeInt, "a"⟩], 10⟩ : RuntimeFunction),
         ⟨VarTypeVoid, "foo", [⟨VarTypeInt, "a"⟩, ⟨VarTypeString, "b"⟩], 11⟩] =
          l1 ++ (⟨VarTypeVoid, "foo", [⟨VarTypeInt, "a"⟩, ⟨VarTypeString, "b"⟩], 11⟩ :
            RuntimeFunction) :: l2 ∧
          ∀ g ∈ l1, ¬ FnMatches g "foo" [VarTypeInt, VarTypeString] :=
  (c7_native_resolution_exact_first_match
    [⟨VarTypeVoid, "foo", [⟨VarTypeInt, "a"⟩], 10⟩,
     ⟨VarTypeVoid, "foo", [⟨VarTypeInt, "a"⟩, ⟨VarTypeString, "b"⟩], 11⟩]
    "foo" [VarTypeInt, VarTypeString]).2 _ rfl

/-- Updating at the decomposition point rewrites exactly the middle element. -/
theorem updMethod_decomp : ∀ (pre : List AsmMethod) (m : AsmMethod) post f,
    updMethod (pre ++ m :: post) pre.length f = pre ++ f m :: post := by
  intro pre
  induction pre with
  | nil => intro m post f; rfl
  | cons a pre ih =>
    intro m post f
    simp only [List.cons_append, List.length_cons, updMethod, List.append_eq]
    rw [ih]

/-- Out-of-range updates do nothing. -/
theorem updMethod_oob : ∀ (ms : List AsmMethod) (p : Nat) f,
    ms.length ≤ p → updMethod ms p f = ms := by
  intro ms
  induction ms with
  | nil => intro p f _; cases p <;> rfl
  | cons m r ih =>
    intro p f h
    cases p with
    | zero => simp at h
    | succ q =>
      simp only [updMethod]
      rw [ih q f (by simpa using h)]

/-- The element at the decomposition point. -/
theorem get?_decomp : ∀ (pre : List AsmMethod) (x : AsmMethod) post,
    (pre ++ x :: post).get? pre.length = some x := by
  intro pre
  induction pre with
  | nil => intro x post; rfl
  | cons a pre ih => intro x post; simpa using ih x post

/-- A successful index lookup yields a decomposition. -/
theorem get?_split : ∀ (ms : List AsmMethod) (p : Nat) (m : AsmMethod),
    ms.get? p = some m → ∃ pre post, ms = pre ++ m :: post ∧ pre.length = p := by
  intro ms
  induction ms with
  | nil => intro p m h; simp at h
  | cons a r ih =>
    intro p m h
    cases p with
    | zero =>
      have : a = m := by simpa using h
      subst this
      exact ⟨[], r, rfl, rfl⟩
    | succ q =>
      obtain ⟨pre, post, hdec, hlen⟩ := ih q m (by simpa using h)
      exact ⟨a :: pre, post, by rw [hdec]; rfl, by simp [hlen]⟩

theorem labelIds_append (l1 l2 : List Instr) :
    labelIds (l1 ++ l2) = labelIds l1 ++ labelIds l2 := by
  simp [labelIds]

theorem labelIds_labelInstr (l : Nat) : labelIds [labelInstr l] = [l] := rfl

theorem labelIds_single_nonlabel (ins : Instr) (h : ins.opcode ≠ Opcode.op_label) :
    labelIds [ins] = [] := by
  simp only [labelIds, List.filter]
  rw [show (ins.opcode == Opcode.op_label) = false by simpa using h]
  rfl

theorem sufOK_nil (a b cl : Nat) : SufOK a b cl [] := by
  refine ⟨by simp [labelIds], ?_, ?_, ?_⟩ <;> simp [labelIds]

theorem sufOK_mono {a b cl : Nat} {suf : List Instr} (h : SufOK a b cl suf)
    {a' b' cl' : Nat} (ha : a' ≤ a) (hb : b ≤ b') (hcl : cl ≤ cl') :
    SufOK a' b' cl' suf := by
  obtain ⟨h1, h2, h3, h4⟩ := h
  refine ⟨h1, ?_, h3, ?_⟩
  · intro t ht; have := h2 t ht; omega
  · intro ins hins hop
    obtain ⟨k, hk1, hk2⟩ := h4 ins hins hop
    exact ⟨k, hk1, by omega⟩

theorem sufOK_append {a b c cl1 cl2 : Nat} {s1 s2 : List Instr}
    (h1 : SufOK a b cl1 s1) (h2 : SufOK b c cl2 s2)
    (hcl : cl1 ≤ cl2) (hab : a ≤ b) (hbc : b ≤ c) : SufOK a c cl2 (s1 ++ s2) := by
  obtain ⟨n1, r1, j1, p1⟩ := h1
  obtain ⟨n2, r2, j2, p2⟩ := h2
  rw [SufOK, labelIds_append]
  refine ⟨?_, ?_, ?_, ?_⟩
  · refine List.Nodup.append n1 n2 ?_
    intro t ht1 ht2
    have hu1 := r1 t ht1
    have hu2 := r2 t ht2
    omega
  · intro t ht
    rcases List.mem_append.mp ht with h | h
    · have hu := r1 t h; omega
    · have hu := r2 t h; omega
  · intro ins hins hop
    rcases List.mem_append.mp hins with h | h
    · obtain ⟨t, ht1, ht2⟩ := j1 ins h hop
      exact ⟨t, ht1, List.mem_append_left _ ht2⟩
    · obtain ⟨t, ht1, ht2⟩ := j2 ins h hop
      exact ⟨t, ht1, List.mem_append_right _ ht2⟩
  · intro ins hins hop
    rcases List.mem_append.mp hins with h | h
    · obtain ⟨k, hk1, hk2⟩ := p1 ins h hop
      exact ⟨k, hk1, by omega⟩
    · exact p2 ins h hop

theorem sufOK_single_plain (a b cl : Nat) (ins : Instr)
    (hl : ins.opcode ≠ Opcode.op_label)
    (hjz : ins.opcode ≠ Opcode.op_jz) (hjmp : ins.opcode ≠ Opcode.op_jmp)
    (hp : ins.opcode ≠ Opcode.op_pushconst) : SufOK a b cl [ins] := by
  refine ⟨?_, ?_, ?_, ?_⟩
  · rw [labelIds_single_nonlabel ins hl]; exact List.nodup_nil
  · rw [labelIds_single_nonlabel ins hl]; simp
  · intro i hi hop
    have : i = ins := by simpa using hi
    subst this
    rcases hop with h | h
    · exact absurd h hjz
    · exact absurd h hjmp
  · intro i hi hop
    have : i = ins := by simpa using hi
    subst this
    exact absurd hop hp

theorem sufOK_single_push (a b cl : Nat) (k : Nat) (hk : k < cl) :
    SufOK a b cl [instrI .op_pushconst (k : Int)] := by
  refine ⟨?_, ?_, ?_, ?_⟩
  · rw [labelIds_single_nonlabel _ (by simp [instrI])]; exact List.nodup_nil
  · rw [labelIds_single_nonlabel _ (by simp [instrI])]; simp
  · intro i hi hop
    have : i = instrI .op_pushconst (k : Int) := by simpa using hi
    subst this
    rcases hop with h | h <;> simp [instrI] at h
  · intro i hi _
    have : i = instrI .op_pushconst (k : Int) := by simpa using hi
    subst this
    exact ⟨k, rfl, hk⟩

theorem stEff_refl (st : AsmState) (p : Nat) : StEff st p st := by
  refine ⟨rfl, rfl, rfl, rfl, le_refl _, ⟨[], by simp⟩, ?_, fun _ => rfl⟩
  intro pre m post hdec hlen
  exact ⟨m, [], hdec, by simp, rfl, rfl, rfl, rfl, ⟨[], by simp⟩, sufOK_nil _ _ _⟩

theorem stEff_trans {st st1 st2 : AsmState} {p : Nat}
    (h1 : StEff st p st1) (h2 : StEff st1 p st2) : StEff st p st2 := by
  obtain ⟨a1, a2, a3, a4, a5, ⟨ce1, a6⟩, a7, a8⟩ := h1
  obtain ⟨b1, b2, b3, b4, b5, ⟨ce2, b6⟩, b7, b8⟩ := h2
  refine ⟨by rw [b1, a1], by rw [b2, a2], by rw [b3, a3], by rw [b4, a4],
    le_trans a5 b5, ⟨ce1 ++ ce2, by rw [b6, a6, List.append_assoc]⟩, ?_, ?_⟩
  · intro pre m post hdec hlen
    obtain ⟨m1, suf1, hdec1, hi1, hn1, hx1, he1, ha1, ⟨v1, hv1⟩, hs1⟩ := a7 pre m post hdec hlen
    obtain ⟨m2, suf2, hdec2, hi2, hn2, hx2, he2, ha2, ⟨v2, hv2⟩, hs2⟩ := b7 pre m1 post hdec1 hlen
    refine ⟨m2, suf1 ++ suf2, hdec2, ?_, by rw [hn2, hn1], by rw [hx2, hx1],
      by rw [he2, he1], by rw [ha2, ha1], ⟨v1 ++ v2, by rw [hv2, hv1, List.append_assoc]⟩, ?_⟩
    · rw [hi2, hi1, List.append_assoc]
    · have hcl : st1.cpool.length ≤ st2.cpool.length := by
        rw [b6]; simp
      exact sufOK_append hs1 hs2 hcl a5 b5
  · intro hlen
    have h1' : st1.methods = st.methods := by
      apply a8 hlen
    rw [b8 (by rw [h1']; exact hlen), h1']

theorem labelIds_cons_label (n : Nat) (l : List Instr) :
    labelIds (labelInstr n :: l) = n :: labelIds l := by
  simp [labelIds, labelInstr, List.filter_cons]

theorem labelIds_cons_nonlabel (ins : Instr) (l : List Instr)
    (h : ins.opcode ≠ Opcode.op_label) : labelIds (ins :: l) = labelIds l := by
  simp only [labelIds, List.filter_cons]
  rw [show (ins.opcode == Opcode.op_label) = false by simpa using h]
  simp

/-- SufOK for the instruction suffix emitted by assembleIfStmt: the
condition suffix, the JZ patched against the false-label, the then suffix,
the JMP patched against the end-label, the false-label, the else suffix and
the end-label. The two labels are allocated right after the condition
(ids n1 and n1 + 1). -/
theorem sufOK_ifGlue {a n1 n4 n7 cl1 cl4 cl7 : Nat}
    {sufc suft sufe : List Instr}
    (hc : SufOK a n1 cl1 sufc)
    (ht : SufOK (n1 + 2) n4 cl4 suft)
    (he : SufOK n4 n7 cl7 sufe)
    (hcl14 : cl1 ≤ cl4) (hcl47 : cl4 ≤ cl7)
    (ha1 : a ≤ n1) (h14 : n1 + 2 ≤ n4) (h47 : n4 ≤ n7) :
    SufOK a n7 cl7
      (sufc ++ (jumpInstr .op_jz n1 :: (suft ++ (jumpInstr .op_jmp (n1 + 1) ::
        (labelInstr n1 :: (sufe ++ [labelInstr (n1 + 1)])))))) := by
  obtain ⟨cn, cr, cj, cp⟩ := hc
  obtain ⟨tn, tr, tj, tp⟩ := ht
  obtain ⟨en, er, ej, ep⟩ := he
  have hjz : (jumpInstr .op_jz n1).opcode ≠ Opcode.op_label := by simp [jumpInstr]
  have hjmp : (jumpInstr .op_jmp (n1 + 1)).opcode ≠ Opcode.op_label := by simp [jumpInstr]
  have hids : labelIds (sufc ++ (jumpInstr .op_jz n1 :: (suft ++ (jumpInstr .op_jmp (n1 + 1) ::
      (labelInstr n1 :: (sufe ++ [labelInstr (n1 + 1)])))))) =
      labelIds sufc ++ (labelIds suft ++ (n1 :: (labelIds sufe ++ [n1 + 1]))) := by
    rw [labelIds_append, labelIds_cons_nonlabel _ _ hjz, labelIds_append,
      labelIds_cons_nonlabel _ _ hjmp, labelIds_cons_label, labelIds_append,
      labelIds_labelInstr]
  refine ⟨?_, ?_, ?_, ?_⟩
  · rw [hids]
    refine List.Nodup.append cn ?_ ?_
    · refine List.Nodup.append tn ?_ ?_
      · refine List.Nodup.cons ?_ ?_
        · intro hmem
          rcases List.mem_append.mp hmem with h | h
          · have := er _ h; omega
          · have : n1 = n1 + 1 := by simpa using h
            omega
        · refine List.Nodup.append en (List.nodup_singleton _) ?_
          intro t hte hts
          have := er t hte
          have : t = n1 + 1 := by simpa using hts
          omega
      · intro t htt hmem
        have hb := tr t htt
        rcases List.mem_cons.mp hmem with h | h
        · omega
        · rcases List.mem_append.mp h with h | h
          · have := er t h; omega
          · have : t = n1 + 1 := by simpa using h
            omega
    · intro t htc hmem
      have hb := cr t htc
      rcases List.mem_append.mp hmem with h | h
      · have := tr t h; omega
      · rcases List.mem_cons.mp h with h | h
        · omega
        · rcases List.mem_append.mp h with h | h
          · have := er t h; omega
          · have : t = n1 + 1 := by simpa using h
            omega
  · rw [hids]
    intro t ht
    rcases List.mem_append.mp ht with h | h
    · have := cr t h; omega
    · rcases List.mem_append.mp h with h | h
      · have := tr t h; omega
      · rcases List.mem_cons.mp h with h | h
        · omega
        · rcases List.mem_append.mp h with h | h
          · have := er t h; omega
          · have : t = n1 + 1 := by simpa using h
            omega
  · intro ins hins hop
    rw [hids]
    rcases List.mem_append.mp hins with h | h
    · obtain ⟨t, ht1, ht2⟩ := cj ins h hop
      exact ⟨t, ht1, List.mem_append_left _ ht2⟩
    · rcases List.mem_cons.mp h with h | h
      · subst h
        refine ⟨n1, rfl, ?_⟩
        apply List.mem_append_right
        apply List.mem_append_right
        exact List.mem_cons_self _ _
      · rcases List.mem_append.mp h with h | h
        · obtain ⟨t, ht1, ht2⟩ := tj ins h hop
          refine ⟨t, ht1, ?_⟩
          apply List.mem_append_right
          exact List.mem_append_left _ ht2
        · rcases List.mem_cons.mp h with h | h
          · subst h
            refine ⟨n1 + 1, rfl, ?_⟩
            apply List.mem_append_right
            apply List.mem_append_right
            apply List.mem_cons_of_mem
            apply List.mem_append_right
            exact List.mem_singleton_self _
          · rcases List.mem_cons.mp h with h | h
            · subst h
              rcases hop with hx | hx <;> simp [labelInstr] at hx
            · rcases List.mem_append.mp h with h | h
              · obtain ⟨t, ht1, ht2⟩ := ej ins h hop
                refine ⟨t, ht1, ?_⟩
                apply List.mem_append_right
                apply List.mem_append_right
                apply List.mem_cons_of_mem
                exact List.mem_append_left _ ht2
              · have : ins = labelInstr (n1 + 1) := by simpa using h
                subst this
                rcases hop with hx | hx <;> simp [labelInstr] at hx
  · intro ins hins hop
    rcases List.mem_append.mp hins with h | h
    · obtain ⟨k, hk1, hk2⟩ := cp ins h hop
      exact ⟨k, hk1, by omega⟩
    · rcases List.mem_cons.mp h with h | h
      · subst h; simp [jumpInstr] at hop
      · rcases List.mem_append.mp h with h | h
        · obtain ⟨k, hk1, hk2⟩ := tp ins h hop
          exact ⟨k, hk1, by omega⟩
        · rcases List.mem_cons.mp h with h | h
          · subst h; simp [jumpInstr] at hop
          · rcases List.mem_cons.mp h with h | h
            · subst h; simp [labelInstr] at hop
            · rcases List.mem_append.mp h with h | h
              · exact ep ins h hop
              · have : ins = labelInstr (n1 + 1) := by simpa using h
                subst this
                simp [labelInstr] at hop

/-- Emitting one instruction whose singleton suffix is well-formed is a
state effect. -/
theorem stEff_emitAt (st : AsmState) (p : Nat) (ins : Instr)
    (h : SufOK st.nextLbl st.nextLbl st.cpool.length [ins]) :
    StEff st p (emitAt st p ins) := by
  refine ⟨rfl, rfl, rfl, rfl, le_refl _, ⟨[], by simp [emitAt]⟩, ?_, ?_⟩
  · intro pre m post hdec hlen
    refine ⟨{ m with instructions := m.instructions ++ [ins] }, [ins], ?_, rfl,
      rfl, rfl, rfl, rfl, ⟨[], by simp⟩, h⟩
    show updMethod st.methods p _ = _
    rw [hdec, ← hlen, updMethod_decomp]
  · intro hlen
    show updMethod st.methods p _ = _
    exact updMethod_oob _ _ _ hlen

/-- Growing the constant pool alone is a state effect. -/
theorem stEff_setPool (st : AsmState) (p : Nat) (pool' : List CPEntry)
    (hext : ∃ ext, pool' = st.cpool ++ ext) :
    StEff st p { st with cpool := pool' } := by
  refine ⟨rfl, rfl, rfl, rfl, le_refl _, hext, ?_, fun _ => rfl⟩
  intro pre m post hdec hlen
  exact ⟨m, [], hdec, by simp, rfl, rfl, rfl, rfl, ⟨[], by simp⟩, sufOK_nil _ _ _⟩

/-- The pool-growing PUSHCONST emission of assembleLiteralExpr is a state
effect. -/
theorem stEff_push (st : AsmState) (p : Nat) (k : Nat) (pool' : List CPEntry)
    (hext : ∃ ext, pool' = st.cpool ++ ext) (hk : k < pool'.length) :
    StEff st p (emitAt { st with cpool := pool' } p (instrI .op_pushconst (k : Int))) := by
  refine stEff_trans (stEff_setPool st p pool' hext) ?_
  exact stEff_emitAt _ p _ (sufOK_single_push _ _ _ k hk)

/-- Defining a local variable in the active method is a state effect. -/
theorem stEff_defineVar (st : AsmState) (p : Nat) (m : AsmMethod)
    (hm : st.methods.get? p = some m) (name : String) (t : VariableType) :
    StEff st p
      { st with methods := updMethod st.methods p (fun _ => (defineVariablePure m name t).2) } := by
  refine ⟨rfl, rfl, rfl, rfl, le_refl _, ⟨[], by simp⟩, ?_, ?_⟩
  · intro pre m' post hdec hlen
    have hm' : m' = m := by
      rw [hdec, ← hlen, get?_decomp] at hm
      exact Option.some.inj hm
    subst hm'
    refine ⟨(defineVariablePure m' name t).2, [], ?_, by simp [defineVariablePure],
      by simp [defineVariablePure], by simp [defineVariablePure],
      by simp [defineVariablePure], by simp [defineVariablePure],
      ⟨[⟨m'.lvtIndex, name, t⟩], by simp [defineVariablePure]⟩, sufOK_nil _ _ _⟩
    show updMethod st.methods p _ = _
    rw [hdec, ← hlen, updMethod_decomp]
  · intro hlen
    show updMethod st.methods p _ = _
    exact updMethod_oob _ _ _ hlen

/-- The bound returned by the interning getters. -/
theorem internBy_idx_lt (pool : List CPEntry) (p : CPEntry → Bool) (mkE : CPEntry) :
    (internBy pool p mkE).1 < (internBy pool p mkE).2.length := by
  unfold internBy
  cases h : findIdxA p pool 0 with
  | some k =>
    have := findIdxA_bounds p pool 0 k h
    simpa using this.2
  | none => simp

/-- The parameter-store prologue of assembleProc is a state effect. -/
theorem stEff_emitParamStores : ∀ (args : List LocalVar) (st : AsmState) (p : Nat),
    StEff st p (emitParamStores st p args) := by
  intro args
  induction args with
  | nil => intro st p; exact stEff_refl st p
  | cons a rest ih =>
    intro st p
    have h1 : emitParamStores st p (a :: rest) =
        emitParamStores (emitAt st p (instrI .op_setlocal a.index)) p rest := by
      simp [emitParamStores]
    rw [h1]
    refine stEff_trans ?_ (ih _ p)
    exact stEff_emitAt _ p _ (sufOK_single_plain _ _ _ _ (by simp [instrI])
      (by simp [instrI]) (by simp [instrI]) (by simp [instrI]))

theorem emitAt_runtime (st : AsmState) (p : Nat) (ins : Instr) :
    (emitAt st p ins).runtime = st.runtime := rfl

theorem emitAt_triggers (st : AsmState) (p : Nat) (ins : Instr) :
    (emitAt st p ins).triggers = st.triggers := rfl

theorem emitAt_triggerIndex (st : AsmState) (p : Nat) (ins : Instr) :
    (emitAt st p ins).triggerIndex = st.triggerIndex := rfl

theorem emitAt_methodIndex (st : AsmState) (p : Nat) (ins : Instr) :
    (emitAt st p ins).methodIndex = st.methodIndex := rfl

theorem emitAt_nextLbl (st : AsmState) (p : Nat) (ins : Instr) :
    (emitAt st p ins).nextLbl = st.nextLbl := rfl

theorem emitAt_cpool (st : AsmState) (p : Nat) (ins : Instr) :
    (emitAt st p ins).cpool = st.cpool := rfl

theorem emitAt_methods (st : AsmState) (p : Nat) (ins : Instr) :
    (emitAt st p ins).methods =
      updMethod st.methods p (fun m => { m with instructions := m.instructions ++ [ins] }) := rfl

/-- The combined state effect of assembleIfStmt: condition effect E1, then
label allocation and JZ emission, then-branch effect E4, JMP and
false-label emission, else-branch effect E7, end-label emission. -/
theorem stEff_ifCompose (st st1 st4 st7 : AsmState) (p : Nat)
    (E1 : StEff st p st1)
    (E4 : StEff (emitAt { st1 with nextLbl := st1.nextLbl + 2 } p
      (jumpInstr .op_jz st1.nextLbl)) p st4)
    (E7 : StEff (emitAt (emitAt st4 p (jumpInstr .op_jmp (st1.nextLbl + 1))) p
      (labelInstr st1.nextLbl)) p st7) :
    StEff st p (emitAt st7 p (labelInstr (st1.nextLbl + 1))) := by
  obtain ⟨a1, a2, a3, a4, a5, ⟨ce1, a6⟩, a7, a8⟩ := E1
  obtain ⟨b1, b2, b3, b4, b5, ⟨ce2, b6⟩, b7, b8⟩ := E4
  obtain ⟨c1, c2, c3, c4, c5, ⟨ce3, c6⟩, c7, c8⟩ := E7
  have b1' : st4.runtime = st1.runtime := b1
  have b2' : st4.triggers = st1.triggers := b2
  have b3' : st4.triggerIndex = st1.triggerIndex := b3
  have b4' : st4.methodIndex = st1.methodIndex := b4
  have b5' : st1.nextLbl + 2 ≤ st4.nextLbl := b5
  have b6' : st4.cpool = st1.cpool ++ ce2 := b6
  have c1' : st7.runtime = st4.runtime := c1
  have c2' : st7.triggers = st4.triggers := c2
  have c3' : st7.triggerIndex = st4.triggerIndex := c3
  have c4' : st7.methodIndex = st4.methodIndex := c4
  have c5' : st4.nextLbl ≤ st7.nextLbl := c5
  have c6' : st7.cpool = st4.cpool ++ ce3 := c6
  refine ⟨?_, ?_, ?_, ?_, ?_, ?_, ?_, ?_⟩
  · show st7.runtime = st.runtime
    rw [c1', b1', a1]
  · show st7.triggers = st.triggers
    rw [c2', b2', a2]
  · show st7.triggerIndex = st.triggerIndex
    rw [c3', b3', a3]
  · show st7.methodIndex = st.methodIndex
    rw [c4', b4', a4]
  · show st.nextLbl ≤ st7.nextLbl
    omega
  · refine ⟨ce1 ++ ce2 ++ ce3, ?_⟩
    show st7.cpool = st.cpool ++ (ce1 ++ ce2 ++ ce3)
    rw [c6', b6', a6]
    simp [List.append_assoc]
  · intro pre m post hdec hlen
    obtain ⟨m1, sufc, hdec1, hi1, hn1, hx1, he1, ha1, ⟨v1, hv1⟩, hs1⟩ :=
      a7 pre m post hdec hlen
    have hdec3 : (emitAt { st1 with nextLbl := st1.nextLbl + 2 } p
        (jumpInstr .op_jz st1.nextLbl)).methods =
        pre ++ { m1 with instructions :=
          m1.instructions ++ [jumpInstr .op_jz st1.nextLbl] } :: post := by
      show updMethod st1.methods p _ = _
      rw [hdec1, ← hlen, updMethod_decomp]
    obtain ⟨m4, suft, hdec4, hi4, hn4, hx4, he4, ha4, ⟨v4, hv4⟩, hs4⟩ :=
      b7 pre _ post hdec3 hlen
    have hi4' : m4.instructions =
        (m1.instructions ++ [jumpInstr .op_jz st1.nextLbl]) ++ suft := hi4
    have hn4' : m4.name = m1.name := hn4
    have hx4' : m4.index = m1.index := hx4
    have he4' : m4.entryLbl = m1.entryLbl := he4
    have ha4' : m4.arguments = m1.arguments := ha4
    have hv4' : m4.vars = m1.vars ++ v4 := hv4
    have hs4' : SufOK (st1.nextLbl + 2) st4.nextLbl st4.cpool.length suft := hs4
    have hdec6 : (emitAt (emitAt st4 p (jumpInstr .op_jmp (st1.nextLbl + 1))) p
        (labelInstr st1.nextLbl)).methods =
        pre ++ { m4 with instructions :=
          (m4.instructions ++ [jumpInstr .op_jmp (st1.nextLbl + 1)]) ++
            [labelInstr st1.nextLbl] } :: post := by
      show updMethod (updMethod st4.methods p _) p _ = _
      rw [hdec4, ← hlen, updMethod_decomp, updMethod_decomp]
    obtain ⟨m7, sufe, hdec7, hi7, hn7, hx7, he7, ha7, ⟨v7, hv7⟩, hs7⟩ :=
      c7 pre _ post hdec6 hlen
    have hi7' : m7.instructions =
        ((m4.instructions ++ [jumpInstr .op_jmp (st1.nextLbl + 1)]) ++
          [labelInstr st1.nextLbl]) ++ sufe := hi7
    have hn7' : m7.name = m4.name := hn7
    have hx7' : m7.index = m4.index := hx7
    have he7' : m7.entryLbl = m4.entryLbl := he7
    have ha7' : m7.arguments = m4.arguments := ha7
    have hv7' : m7.vars = m4.vars ++ v7 := hv7
    have hs7' : SufOK st4.nextLbl st7.nextLbl st7.cpool.length sufe := hs7
    refine ⟨{ m7 with instructions :=
        m7.instructions ++ [labelInstr (st1.nextLbl + 1)] },
      sufc ++ (jumpInstr .op_jz st1.nextLbl :: (suft ++ (jumpInstr .op_jmp (st1.nextLbl + 1) ::
        (labelInstr st1.nextLbl :: (sufe ++ [labelInstr (st1.nextLbl + 1)]))))), ?_, ?_,
      ?_, ?_, ?_, ?_, ?_, ?_⟩
    · show updMethod st7.methods p _ = _
      rw [hdec7, ← hlen, updMethod_decomp]
    · show m7.instructions ++ _ = _
      rw [hi7', hi4', hi1]
      simp [List.append_assoc]
    · show m7.name = m.name
      rw [hn7', hn4', hn1]
    · show m7.index = m.index
      rw [hx7', hx4', hx1]
    · show m7.entryLbl = m.entryLbl
      rw [he7', he4', he1]
    · show m7.arguments = m.arguments
      rw [ha7', ha4', ha1]
    · refine ⟨v1 ++ v4 ++ v7, ?_⟩
      show m7.vars = _
      rw [hv7', hv4', hv1]
      simp [List.append_assoc]
    · show SufOK st.nextLbl st7.nextLbl st7.cpool.length _
      have hcl14 : st1.cpool.length ≤ st4.cpool.length := by rw [b6']; simp
      have hcl47 : st4.cpool.length ≤ st7.cpool.length := by rw [c6']; simp
      exact sufOK_ifGlue hs1 hs4' hs7' hcl14 hcl47 a5 b5' c5'
  · intro hlen
    show updMethod st7.methods p _ = _
    have h1 : st1.methods = st.methods := a8 hlen
    have h3 : (emitAt { st1 with nextLbl := st1.nextLbl + 2 } p
        (jumpInstr .op_jz st1.nextLbl)).methods = st.methods := by
      show updMethod st1.methods p _ = _
      rw [h1, updMethod_oob _ _ _ hlen]
    have h4 : st4.methods = st.methods := by
      rw [b8 (by rw [h3]; exact hlen), h3]
    have h6 : (emitAt (emitAt st4 p (jumpInstr .op_jmp (st1.nextLbl + 1))) p
        (labelInstr st1.nextLbl)).methods = st.methods := by
      show updMethod (updMethod st4.methods p _) p _ = _
      rw [h4, updMethod_oob _ _ _ hlen, updMethod_oob _ _ _ hlen]
    have h7 : st7.methods = st.methods := by
      rw [c8 (by rw [h6]; exact hlen), h6]
    rw [h7, updMethod_oob _ _ _ hlen]

/-- Every successful walker call is a state effect: it only appends
well-formed instruction suffixes to the active method, only appends to the
pool, and moves the label supply forward. -/
theorem assembleN_eff : ∀ (fuel : Nat) (st : AsmState) (p : Nat) (node : Node)
    (st' : AsmState) (n2 : Node),
    assembleN fuel st p node = .ok (st', n2) → StEff st p st' := by
  intro fuel
  induction fuel with
  | zero =>
    intro st p node st' n2 h
    simp [assembleN] at h
  | succ fuel ih =>
    intro st p node st' n2 h
    cases node with
    | expr e =>
      cases e with
      | lit t v =>
        cases t <;> cases v <;> simp only [assembleN] at h
        all_goals try (exact Except.noConfusion h)
        all_goals try (split at h)
        all_goals (
          rw [Except.ok.injEq, Prod.mk.injEq] at h
          obtain ⟨h1, _⟩ := h
          subst h1
          exact stEff_push st p _ _ (internBy_ext _ _ _) (internBy_idx_lt _ _ _))
      | ident name =>
        cases hgm : st.methods.get? p with
        | none =>
          simp only [assembleN, hgm] at h
          exact Except.noConfusion h
        | some m =>
          cases hrv : resolveVariable m name with
          | none =>
            simp only [assembleN, hgm, hrv] at h
            exact Except.noConfusion h
          | some lv =>
            simp only [assembleN, hgm, hrv] at h
            rw [Except.ok.injEq, Prod.mk.injEq] at h
            obtain ⟨h1, _⟩ := h
            subst h1
            exact stEff_emitAt _ _ _ (sufOK_single_plain _ _ _ _ (by simp [instrI])
              (by simp [instrI]) (by simp [instrI]) (by simp [instrI]))
      | call name native localM args =>
        cases hgm : st.methods.get? p with
        | none =>
          simp only [assembleN, hgm] at h
          exact Except.noConfusion h
        | some m =>
          cases hat : argTypes m args with
          | error e =>
            simp only [assembleN, hgm, hat] at h
            exact Except.noConfusion h
          | ok types =>
            cases hff : findFunctionWithArguments st.runtime.Functions name types with
            | some nm =>
              cases har : assembleN fuel st p (.argsRev args) with
              | error e =>
                simp only [assembleN, hgm, hat, hff, har] at h
                exact Except.noConfusion h
              | ok pr =>
                obtain ⟨st1, nrest⟩ := pr
                cases nrest with
                | argsRev args2 =>
                  simp only [assembleN, hgm, hat, hff, har] at h
                  rw [Except.ok.injEq, Prod.mk.injEq] at h
                  obtain ⟨h1, _⟩ := h
                  subst h1
                  refine stEff_trans (ih st p (.argsRev args) st1 (.argsRev args2) har) ?_
                  exact stEff_emitAt _ _ _ (sufOK_single_plain _ _ _ _ (by simp [instrI])
                    (by simp [instrI]) (by simp [instrI]) (by simp [instrI]))
                | expr e2 =>
                  simp only [assembleN, hgm, hat, hff, har] at h
                  exact Except.noConfusion h
                | stmt s2 =>
                  simp only [assembleN, hgm, hat, hff, har] at h
                  exact Except.noConfusion h
                | stmts ss2 =>
                  simp only [assembleN, hgm, hat, hff, har] at h
                  exact Except.noConfusion h
            | none =>
              cases hrm : resolveMethod st name with
              | none =>
                simp only [assembleN, hgm, hat, hff, hrm] at h
                exact Except.noConfusion h
              | some lm =>
                cases har : assembleN fuel st p (.argsRev args) with
                | error e =>
                  simp only [assembleN, hgm, hat, hff, hrm, har] at h
                  exact Except.noConfusion h
                | ok pr =>
                  obtain ⟨st1, nrest⟩ := pr
                  cases nrest with
                  | argsRev args2 =>
                    simp only [assembleN, hgm, hat, hff, hrm, har] at h
                    rw [Except.ok.injEq, Prod.mk.injEq] at h
                    obtain ⟨h1, _⟩ := h
                    subst h1
                    refine stEff_trans (ih st p (.argsRev args) st1 (.argsRev args2) har) ?_
                    exact stEff_emitAt _ _ _ (sufOK_single_plain _ _ _ _ (by simp [instrI])
                      (by simp [instrI]) (by simp [instrI]) (by simp [instrI]))
                  | expr e2 =>
                    simp only [assembleN, hgm, hat, hff, hrm, har] at h
                    exact Except.noConfusion h
                  | stmt s2 =>
                    simp only [assembleN, hgm, hat, hff, hrm, har] at h
                    exact Except.noConfusion h
                  | stmts ss2 =>
                    simp only [assembleN, hgm, hat, hff, hrm, har] at h
                    exact Except.noConfusion h
      | logical l op r =>
        cases hl : assembleN fuel st p (.expr l) with
        | error e =>
          simp only [assembleN, hl] at h
          exact Except.noConfusion h
        | ok pr1 =>
          obtain ⟨st1, nl⟩ := pr1
          cases nl with
          | expr l2 =>
            cases hr : assembleN fuel st1 p (.expr r) with
            | error e =>
              simp only [assembleN, hl, hr] at h
              exact Except.noConfusion h
            | ok pr2 =>
              obtain ⟨st2, nr⟩ := pr2
              cases nr with
              | expr r2 =>
                simp only [assembleN, hl, hr] at h
                cases op
                all_goals try (exact Except.noConfusion h)
                rw [Except.ok.injEq, Prod.mk.injEq] at h
                obtain ⟨h1, _⟩ := h
                subst h1
                refine stEff_trans (ih st p (.expr l) st1 (.expr l2) hl) ?_
                refine stEff_trans (ih st1 p (.expr r) st2 (.expr r2) hr) ?_
                exact stEff_emitAt _ _ _ (sufOK_single_plain _ _ _ _ (by simp [instrI])
                  (by simp [instrI]) (by simp [instrI]) (by simp [instrI]))
              | argsRev es2 =>
                simp only [assembleN, hl, hr] at h
                exact Except.noConfusion h
              | stmt s2 =>
                simp only [assembleN, hl, hr] at h
                exact Except.noConfusion h
              | stmts ss2 =>
                simp only [assembleN, hl, hr] at h
                exact Except.noConfusion h
          | argsRev es2 =>
            simp only [assembleN, hl] at h
            exact Except.noConfusion h
          | stmt s2 =>
            simp only [assembleN, hl] at h
            exact Except.noConfusion h
          | stmts ss2 =>
            simp only [assembleN, hl] at h
            exact Except.noConfusion h
    | argsRev es =>
      cases es with
      | nil =>
        simp only [assembleN] at h
        rw [Except.ok.injEq, Prod.mk.injEq] at h
        obtain ⟨h1, _⟩ := h
        subst h1
        exact stEff_refl st p
      | cons a rest =>
        cases h1 : assembleN fuel st p (.argsRev rest) with
        | error e =>
          simp only [assembleN, h1] at h
          exact Except.noConfusion h
        | ok pr1 =>
          obtain ⟨st1, nr⟩ := pr1
          cases nr with
          | argsRev rest2 =>
            cases h2 : assembleN fuel st1 p (.expr a) with
            | error e =>
              simp only [assembleN, h1, h2] at h
              exact Except.noConfusion h
            | ok pr2 =>
              obtain ⟨st2, na⟩ := pr2
              cases na with
              | expr a2 =>
                simp only [assembleN, h1, h2] at h
                rw [Except.ok.injEq, Prod.mk.injEq] at h
                obtain ⟨h1x, _⟩ := h
                subst h1x
                exact stEff_trans (ih st p (.argsRev rest) st1 (.argsRev rest2) h1)
                  (ih st1 p (.expr a) st2 (.expr a2) h2)
              | argsRev es3 =>
                simp only [assembleN, h1, h2] at h
                exact Except.noConfusion h
              | stmt s3 =>
                simp only [assembleN, h1, h2] at h
                exact Except.noConfusion h
              | stmts ss3 =>
                simp only [assembleN, h1, h2] at h
                exact Except.noConfusion h
          | expr e2 =>
            simp only [assembleN, h1] at h
            exact Except.noConfusion h
          | stmt s2 =>
            simp only [assembleN, h1] at h
            exact Except.noConfusion h
          | stmts ss2 =>
            simp only [assembleN, h1] at h
            exact Except.noConfusion h
    | stmts ss =>
      cases ss with
      | nil =>
        simp only [assembleN] at h
        rw [Except.ok.injEq, Prod.mk.injEq] at h
        obtain ⟨h1, _⟩ := h
        subst h1
        exact stEff_refl st p
      | cons s rest =>
        cases h1 : assembleN fuel st p (.stmt s) with
        | error e =>
          simp only [assembleN, h1] at h
          exact Except.noConfusion h
        | ok pr1 =>
          obtain ⟨st1, n1⟩ := pr1
          cases h2 : assembleN fuel st1 p (.stmts rest) with
          | error e =>
            simp only [assembleN, h1, h2] at h
            exact Except.noConfusion h
          | ok pr2 =>
            obtain ⟨st2, nr2⟩ := pr2
            simp only [assembleN, h1, h2] at h
            rw [Except.ok.injEq, Prod.mk.injEq] at h
            obtain ⟨h1x, _⟩ := h
            subst h1x
            exact stEff_trans (ih st p (.stmt s) st1 n1 h1)
              (ih st1 p (.stmts rest) st2 nr2 h2)
    | stmt s =>
      cases s with
      | block ss =>
        cases hb : assembleN fuel st p (.stmts ss) with
        | error e =>
          simp only [assembleN, hb] at h
          exact Except.noConfusion h
        | ok pr =>
          obtain ⟨st1, nb⟩ := pr
          simp only [assembleN, hb] at h
          rw [Except.ok.injEq, Prod.mk.injEq] at h
          obtain ⟨h1, _⟩ := h
          subst h1
          exact ih st p (.stmts ss) st1 nb hb
      | exprStmt e =>
        cases hb : assembleN fuel st p (.expr e) with
        | error msg =>
          simp only [assembleN, hb] at h
          exact Except.noConfusion h
        | ok pr =>
          obtain ⟨st1, nb⟩ := pr
          simp only [assembleN, hb] at h
          rw [Except.ok.injEq, Prod.mk.injEq] at h
          obtain ⟨h1, _⟩ := h
          subst h1
          exact ih st p (.expr e) st1 nb hb
      | varDecl ty name init =>
        simp only [assembleN] at h
        split at h
        · exact Except.noConfusion h
        · cases hgm : st.methods.get? p with
          | none =>
            rw [hgm] at h
            exact Except.noConfusion h
          | some m =>
            rw [hgm] at h
            simp only at h
            split at h
            · exact Except.noConfusion h
            · cases init with
              | none =>
                simp only [Except.ok.injEq, Prod.mk.injEq] at h
                obtain ⟨h1, _⟩ := h
                subst h1
                exact stEff_defineVar st p m hgm name (ResolveVarType ty)
              | some e =>
                simp only at h
                cases hae : assembleN fuel { st with methods := updMethod st.methods p (fun _ => (defineVariablePure m name (ResolveVarType ty)).2) } p (.expr e) with
                | error msg =>
                  rw [hae] at h
                  exact Except.noConfusion h
                | ok pr2 =>
                  obtain ⟨st2, ne⟩ := pr2
                  cases ne with
                  | expr e2 =>
                    rw [hae] at h
                    simp only at h
                    cases hgm2 : st2.methods.get? p with
                    | none =>
                      rw [hgm2] at h
                      exact Except.noConfusion h
                    | some m2 =>
                      rw [hgm2] at h
                      simp only at h
                      cases htn : typeOfNode m2 e2 with
                      | error msg =>
                        rw [htn] at h
                        exact Except.noConfusion h
                      | ok exprType =>
                        rw [htn] at h
                        simp only at h
                        split at h
                        · exact Except.noConfusion h
                        · rw [Except.ok.injEq, Prod.mk.injEq] at h
                          obtain ⟨h1, _⟩ := h
                          subst h1
                          refine stEff_trans
                            (stEff_defineVar st p m hgm name (ResolveVarType ty)) ?_
                          refine stEff_trans (ih _ p (.expr e) st2 (.expr e2) hae) ?_
                          exact stEff_emitAt _ _ _ (sufOK_single_plain _ _ _ _
                            (by simp [instrI]) (by simp [instrI]) (by simp [instrI])
                            (by simp [instrI]))
                  | argsRev es2 =>
                    rw [hae] at h
                    exact Except.noConfusion h
                  | stmt s2 =>
                    rw [hae] at h
                    exact Except.noConfusion h
                  | stmts ss2 =>
                    rw [hae] at h
                    exact Except.noConfusion h
      | ifStmt cond thn els =>
        cases hc : assembleN fuel st p (.expr cond) with
        | error e =>
          simp only [assembleN, hc] at h
          exact Except.noConfusion h
        | ok pr1 =>
          obtain ⟨st1, nc⟩ := pr1
          cases ht : assembleN fuel
              (emitAt { st1 with nextLbl := st1.nextLbl + 2 } p
                (jumpInstr .op_jz st1.nextLbl)) p (.stmt thn) with
          | error e =>
            simp only [assembleN, hc, ht] at h
            exact Except.noConfusion h
          | ok pr2 =>
            obtain ⟨st4, nt⟩ := pr2
            cases els with
            | none =>
              simp only [assembleN, hc, ht] at h
              rw [Except.ok.injEq, Prod.mk.injEq] at h
              obtain ⟨h1, _⟩ := h
              subst h1
              exact stEff_ifCompose st st1 st4 _ p
                (ih st p (.expr cond) st1 nc hc)
                (ih _ p (.stmt thn) st4 nt ht)
                (stEff_refl _ p)
            | some s =>
              cases he : assembleN fuel
                  (emitAt (emitAt st4 p (jumpInstr .op_jmp (st1.nextLbl + 1))) p
                    (labelInstr st1.nextLbl)) p (.stmt s) with
              | error e =>
                simp only [assembleN, hc, ht, he] at h
                exact Except.noConfusion h
              | ok pr3 =>
                obtain ⟨st7, ns⟩ := pr3
                simp only [assembleN, hc, ht, he] at h
                rw [Except.ok.injEq, Prod.mk.injEq] at h
                obtain ⟨h1, _⟩ := h
                subst h1
                exact stEff_ifCompose st st1 st4 st7 p
                  (ih st p (.expr cond) st1 nc hc)
                  (ih _ p (.stmt thn) st4 nt ht)
                  (ih _ p (.stmt s) st7 ns he)

theorem flatten_eq (st : AsmState) : flatten st = flatJoin st.methods := rfl

theorem flatJoin_append (a b : List AsmMethod) :
    flatJoin (a ++ b) = flatJoin a ++ flatJoin b := by
  simp [flatJoin]

theorem flatJoin_cons (m : AsmMethod) (ms : List AsmMethod) :
    flatJoin (m :: ms) = m.instructions ++ flatJoin ms := by
  simp [flatJoin]

/-- Inserting fresh identities in the middle preserves distinctness. -/
theorem nodup_mid_insert {A B S C : List Nat}
    (h : (A ++ (B ++ C)).Nodup) (hs : S.Nodup)
    (hd : ∀ t ∈ S, t ∉ A ++ (B ++ C)) : (A ++ ((B ++ S) ++ C)).Nodup := by
  have hbig : ((A ++ (B ++ C)) ++ S).Nodup := by
    refine List.Nodup.append h hs ?_
    intro a ha has
    exact hd a has ha
  have hperm : ((A ++ (B ++ C)) ++ S).Perm (A ++ ((B ++ S) ++ C)) := by
    have h1 : A ++ ((B ++ S) ++ C) = A ++ (B ++ (S ++ C)) := by
      simp [List.append_assoc]
    have h2 : (A ++ (B ++ C)) ++ S = A ++ (B ++ (C ++ S)) := by
      simp [List.append_assoc]
    rw [h1, h2]
    exact List.Perm.append_left A (List.Perm.append_left B (List.perm_append_comm))
  exact hperm.nodup hbig

/-- JInvW only depends on the instruction list. -/
theorem JInvW_congr {m m2 : AsmMethod} (h : m2.instructions = m.instructions)
    (hj : JInvW m) : JInvW m2 := by
  intro ins hins hop
  rw [h] at hins
  obtain ⟨t, ht, k, ins2, hk, hl, hid⟩ := hj ins hins hop
  exact ⟨t, ht, k, ins2, by rw [h]; exact hk, hl, hid⟩

/-- JInv only depends on the instruction list. -/
theorem JInv_congr {m m2 : AsmMethod} (h : m2.instructions = m.instructions)
    (hj : JInv m) : JInv m2 := by
  intro ins hins hop
  rw [h] at hins
  obtain ⟨t, ht, k, ins2, hk, hl, hid, j, ins3, hkj, hjj, hnl⟩ := hj ins hins hop
  exact ⟨t, ht, k, ins2, by rw [h]; exact hk, hl, hid, j, ins3, hkj,
    by rw [h]; exact hjj, hnl⟩

/-- PushInv only depends on the instruction list. -/
theorem PushInv_congr {cl : Nat} {m m2 : AsmMethod} (h : m2.instructions = m.instructions)
    (hj : PushInv cl m) : PushInv cl m2 := by
  intro ins hins hop
  rw [h] at hins
  exact hj ins hins hop

/-- PushInv is monotone in the pool length. -/
theorem PushInv_mono {cl cl2 : Nat} {m : AsmMethod} (h : cl ≤ cl2)
    (hj : PushInv cl m) : PushInv cl2 m := by
  intro ins hins hop
  obtain ⟨k, hk1, hk2⟩ := hj ins hins hop
  exact ⟨k, hk1, by omega⟩

/-- JInv is preserved by appending jump-free instructions. -/
theorem JInv_extend {m : AsmMethod} (ext : List Instr) (hj : JInv m)
    (hnj : ∀ i ∈ ext, i.opcode ≠ Opcode.op_jz ∧ i.opcode ≠ Opcode.op_jmp) :
    JInv { m with instructions := m.instructions ++ ext } := by
  intro ins hins hop
  simp only [AsmMethod.instructions] at hins
  rcases List.mem_append.mp hins with hin | hin
  · obtain ⟨t, ht, k, ins2, hk, hl, hid, j, ins3, hkj, hjj, hnl⟩ := hj ins hin hop
    refine ⟨t, ht, k, ins2, ?_, hl, hid, j, ins3, hkj, ?_, hnl⟩
    · show (m.instructions ++ ext).get? k = some ins2
      rw [List.get?_append (List.get?_eq_some.mp hk).1]
      exact hk
    · show (m.instructions ++ ext).get? j = some ins3
      rw [List.get?_append (List.get?_eq_some.mp hjj).1]
      exact hjj
  · obtain ⟨h1, h2⟩ := hnj ins hin
    rcases hop with hx | hx
    · exact absurd hx h1
    · exact absurd hx h2

/-- JInvW is preserved by appending instructions. -/
theorem JInvW_extend {m : AsmMethod} (ext : List Instr) (hj : JInvW m)
    (hnj : ∀ i ∈ ext, i.opcode ≠ Opcode.op_jz ∧ i.opcode ≠ Opcode.op_jmp) :
    JInvW { m with instructions := m.instructions ++ ext } := by
  intro ins hins hop
  simp only [AsmMethod.instructions] at hins
  rcases List.mem_append.mp hins with hin | hin
  · obtain ⟨t, ht, k, ins2, hk, hl, hid⟩ := hj ins hin hop
    refine ⟨t, ht, k, ins2, ?_, hl, hid⟩
    show (m.instructions ++ ext).get? k = some ins2
    rw [List.get?_append (List.get?_eq_some.mp hk).1]
    exact hk
  · obtain ⟨h1, h2⟩ := hnj ins hin
    rcases hop with hx | hx
    · exact absurd hx h1
    · exact absurd hx h2

theorem getq_right {α : Type} : ∀ (l1 l2 : List α) (k : Nat),
    (l1 ++ l2).get? (l1.length + k) = l2.get? k := by
  intro l1
  induction l1 with
  | nil => intro l2 k; simp
  | cons a r ih =>
    intro l2 k
    show (a :: (r ++ l2)).get? (r.length + 1 + k) = l2.get? k
    rw [show r.length + 1 + k = (r.length + k) + 1 by omega]
    exact ih l2 k

theorem getq_left {α : Type} : ∀ (l1 l2 : List α) (k : Nat), k < l1.length →
    (l1 ++ l2).get? k = l1.get? k := by
  intro l1
  induction l1 with
  | nil => intro l2 k h; simp at h
  | cons a r ih =>
    intro l2 k h
    cases k with
    | zero => rfl
    | succ k => exact ih l2 k (by simpa using h)

theorem getq_split_gen {α : Type} : ∀ (l : List α) (k : Nat) (x : α),
    l.get? k = some x → ∃ l1 l2, l = l1 ++ x :: l2 ∧ l1.length = k := by
  intro l
  induction l with
  | nil => intro k x h; simp at h
  | cons a r ih =>
    intro k x h
    cases k with
    | zero =>
      refine ⟨[], r, ?_, rfl⟩
      simp only [List.get?] at h
      rw [Option.some.inj h]
      rfl
    | succ k =>
      obtain ⟨l1, l2, he, hl⟩ := ih k x h
      exact ⟨a :: l1, l2, by rw [he]; rfl, by simp [hl]⟩

theorem mem_getq {α : Type} : ∀ (l : List α) (x : α), x ∈ l → ∃ k, l.get? k = some x := by
  intro l
  induction l with
  | nil => intro x h; simp at h
  | cons a r ih =>
    intro x h
    rcases List.mem_cons.mp h with h | h
    · exact ⟨0, by rw [h]; rfl⟩
    · obtain ⟨k, hk⟩ := ih x h
      exact ⟨k + 1, hk⟩

theorem take_len_append {α : Type} : ∀ (l1 l2 : List α), (l1 ++ l2).take l1.length = l1 := by
  intro l1
  induction l1 with
  | nil => intro l2; rfl
  | cons a r ih => intro l2; simp [ih]

/-- labelIds over an arbitrary cons cell. -/
theorem labelIds_cons (a : Instr) (r : List Instr) :
    labelIds (a :: r) =
      if a.opcode = Opcode.op_label then a.lblId :: labelIds r else labelIds r := by
  simp only [labelIds, List.filter_cons]
  by_cases h : a.opcode = Opcode.op_label
  · rw [if_pos (by simpa using h), if_pos h]; rfl
  · rw [if_neg (by simpa using h), if_neg h]

/-- Every recorded label identity comes from a label instruction at some
position. -/
theorem labelIds_mem_exists : ∀ (l : List Instr) (t : Nat), t ∈ labelIds l →
    ∃ k ins2, l.get? k = some ins2 ∧ ins2.opcode = Opcode.op_label ∧ ins2.lblId = t := by
  intro l
  induction l with
  | nil => intro t ht; simp [labelIds] at ht
  | cons a r ih =>
    intro t ht
    rw [labelIds_cons] at ht
    by_cases ha : a.opcode = Opcode.op_label
    · rw [if_pos ha] at ht
      rcases List.mem_cons.mp ht with h | h
      · exact ⟨0, a, rfl, ha, h.symm⟩
      · obtain ⟨k, ins2, h1, h2, h3⟩ := ih t h
        exact ⟨k + 1, ins2, h1, h2, h3⟩
    · rw [if_neg ha] at ht
      obtain ⟨k, ins2, h1, h2, h3⟩ := ih t ht
      exact ⟨k + 1, ins2, h1, h2, h3⟩

theorem countNonLabel_append (l1 l2 : List Instr) :
    countNonLabel (l1 ++ l2) = countNonLabel l1 + countNonLabel l2 := by
  simp [countNonLabel]

theorem countNonLabel_cons (a : Instr) (r : List Instr) :
    countNonLabel (a :: r) =
      (if a.opcode = Opcode.op_label then 0 else 1) + countNonLabel r := by
  simp only [countNonLabel, List.filter_cons]
  by_cases h : a.opcode = Opcode.op_label
  · rw [show (a.opcode != Opcode.op_label) = false by simpa using h, if_pos h]
    simp
  · rw [show (a.opcode != Opcode.op_label) = true by simpa using h, if_neg h]
    simp [Nat.add_comm]

theorem jinvw_of_jinv {m : AsmMethod} (h : JInv m) : JInvW m := by
  intro ins hins hop
  obtain ⟨t, ht, k, ins2, hk, hl, hid, _⟩ := h ins hins hop
  exact ⟨t, ht, k, ins2, hk, hl, hid⟩

/-- Appending a well-formed suffix to a method keeps the weak jump
invariant: old jumps still see their old labels, new jumps see labels of
the suffix. -/
theorem jinvw_append_suf {m : AsmMethod} {suf : List Instr} {a b cl : Nat}
    (hw : JInvW m) (hs : SufOK a b cl suf) :
    JInvW { m with instructions := m.instructions ++ suf } := by
  intro ins hins hop
  simp only [AsmMethod.instructions] at hins
  rcases List.mem_append.mp hins with hin | hin
  · obtain ⟨t, ht, k, ins2, hk, hl, hid⟩ := hw ins hin hop
    refine ⟨t, ht, k, ins2, ?_, hl, hid⟩
    show (m.instructions ++ suf).get? k = some ins2
    rw [getq_left _ _ _ (List.get?_eq_some.mp hk).1]
    exact hk
  · obtain ⟨_, _, h3, _⟩ := hs
    obtain ⟨t, ht, htm⟩ := h3 ins hin hop
    obtain ⟨k, ins2, hk, hl, hid⟩ := labelIds_mem_exists suf t htm
    refine ⟨t, ht, m.instructions.length + k, ins2, ?_, hl, hid⟩
    show (m.instructions ++ suf).get? (m.instructions.length + k) = some ins2
    rw [getq_right]
    exact hk

/-- Appending a well-formed suffix keeps the pushconst bound. -/
theorem pushInv_append_suf {m : AsmMethod} {suf : List Instr} {a b cl : Nat}
    (hp : PushInv cl m) (hs : SufOK a b cl suf) :
    PushInv cl { m with instructions := m.instructions ++ suf } := by
  intro ins hins hop
  simp only [AsmMethod.instructions] at hins
  rcases List.mem_append.mp hins with hin | hin
  · exact hp ins hin hop
  · exact hs.2.2.2 ins hin hop

/-- Appending instructions free of pushconst keeps the pushconst bound. -/
theorem pushInv_extend {cl : Nat} {m : AsmMethod} (ext : List Instr)
    (hp : PushInv cl m) (hne : ∀ i ∈ ext, i.opcode ≠ Opcode.op_pushconst) :
    PushInv cl { m with instructions := m.instructions ++ ext } := by
  intro ins hins hop
  simp only [AsmMethod.instructions] at hins
  rcases List.mem_append.mp hins with hin | hin
  · exact hp ins hin hop
  · exact absurd hop (hne ins hin)

/-- Appending the final RETURN turns the weak jump invariant into the full
one: the RETURN is a non-label instruction sitting after every label. -/
theorem jinv_of_jinvw_ret {m : AsmMethod} (hw : JInvW m) :
    JInv { m with instructions := m.instructions ++ [instrI Opcode.op_return 0] } := by
  intro ins hins hop
  simp only [AsmMethod.instructions] at hins
  rcases List.mem_append.mp hins with hin | hin
  · obtain ⟨t, ht, k, ins2, hk, hl, hid⟩ := hw ins hin hop
    refine ⟨t, ht, k, ins2, ?_, hl, hid, m.instructions.length, instrI Opcode.op_return 0,
      (List.get?_eq_some.mp hk).1, ?_, by simp [instrI]⟩
    · show (m.instructions ++ [instrI Opcode.op_return 0]).get? k = some ins2
      rw [getq_left _ _ _ (List.get?_eq_some.mp hk).1]
      exact hk
    · show (m.instructions ++ [instrI Opcode.op_return 0]).get? (m.instructions.length) = some (instrI Opcode.op_return 0)
      have := getq_right m.instructions [instrI Opcode.op_return 0] 0
      rw [Nat.add_zero] at this
      rw [this]
      rfl
  · have : ins = instrI Opcode.op_return 0 := by simpa using hin
    rw [this] at hop
    rcases hop with hx | hx <;> simp [instrI] at hx

theorem updMethod_length : ∀ (ms : List AsmMethod) (p : Nat) (f : AsmMethod → AsmMethod),
    (updMethod ms p f).length = ms.length := by
  intro ms
  induction ms with
  | nil => intro p f; rfl
  | cons m r ih =>
    intro p f
    cases p with
    | zero => rfl
    | succ p => simp [updMethod, ih]

theorem emitAt_oob {st : AsmState} {p : Nat} (ins : Instr)
    (h : st.methods.length ≤ p) : emitAt st p ins = st := by
  simp only [emitAt]
  rw [updMethod_oob st.methods p _ h]

theorem flatJoin_nil : flatJoin [] = [] := rfl

/-- labelIds of the flat stream after extending one method. -/
theorem labelIds_flatten_ext {msNew pre post : List AsmMethod}
    {m m2 : AsmMethod} {ext : List Instr}
    (hnew : msNew = pre ++ m2 :: post) (hi : m2.instructions = m.instructions ++ ext) :
    labelIds (flatJoin msNew) =
      labelIds (flatJoin pre) ++
        ((labelIds m.instructions ++ labelIds ext) ++ labelIds (flatJoin post)) := by
  rw [hnew, flatJoin_append, flatJoin_cons, hi]
  simp [labelIds_append]

/-- labelIds of the flat stream of a decomposed method list. -/
theorem labelIds_flatten_decomp {ms pre post : List AsmMethod} {m : AsmMethod}
    (hdec : ms = pre ++ m :: post) :
    labelIds (flatJoin ms) =
      labelIds (flatJoin pre) ++ (labelIds m.instructions ++ labelIds (flatJoin post)) := by
  rw [hdec, flatJoin_append, flatJoin_cons]
  simp [labelIds_append]

/-- Emitting a non-label, non-jump, non-pushconst instruction anywhere
preserves the global invariant. -/
theorem ginv_emit_plain {st : AsmState} {p : Nat} {ins : Instr}
    (hg : GInv st) (h1 : ins.opcode ≠ Opcode.op_label)
    (h2 : ins.opcode ≠ Opcode.op_jz) (h3 : ins.opcode ≠ Opcode.op_jmp)
    (h4 : ins.opcode ≠ Opcode.op_pushconst) :
    GInv (emitAt st p ins) := by
  cases hq : st.methods.get? p with
  | none =>
    rw [emitAt_oob ins (List.get?_eq_none.mp hq)]
    exact hg
  | some m =>
    obtain ⟨pre, post, hdec, hlen⟩ := get?_split st.methods p m hq
    obtain ⟨hn, hb, hj, hp⟩ := hg
    have hmeth : (emitAt st p ins).methods =
        pre ++ { m with instructions := m.instructions ++ [ins] } :: post := by
      show updMethod st.methods p _ = _
      rw [hdec, ← hlen, updMethod_decomp]
    have hflat : labelIds (flatten (emitAt st p ins)) = labelIds (flatten st) := by
      rw [flatten_eq, flatten_eq,
          labelIds_flatten_ext hmeth (show _ = m.instructions ++ [ins] from rfl),
          labelIds_flatten_decomp hdec, labelIds_single_nonlabel ins h1]
      simp
    refine ⟨?_, ?_, ?_, ?_⟩
    · rw [hflat]; exact hn
    · intro t ht
      rw [hflat] at ht
      exact hb t ht
    · intro x hx
      rw [hmeth] at hx
      rcases List.mem_append.mp hx with hx | hx
      · exact hj x (by rw [hdec]; exact List.mem_append.mpr (Or.inl hx))
      · rcases List.mem_cons.mp hx with hx | hx
        · rw [hx]
          refine JInv_extend [ins]
            (hj m (by rw [hdec]; exact List.mem_append.mpr (Or.inr (List.mem_cons_self _ _)))) ?_
          intro i hi
          have hie : i = ins := by simpa using hi
          rw [hie]; exact ⟨h2, h3⟩
        · exact hj x (by rw [hdec]; exact List.mem_append.mpr (Or.inr (List.mem_cons_of_mem _ hx)))
    · intro x hx
      rw [hmeth] at hx
      show PushInv st.cpool.length x
      rcases List.mem_append.mp hx with hx | hx
      · exact hp x (by rw [hdec]; exact List.mem_append.mpr (Or.inl hx))
      · rcases List.mem_cons.mp hx with hx | hx
        · rw [hx]
          refine pushInv_extend [ins]
            (hp m (by rw [hdec]; exact List.mem_append.mpr (Or.inr (List.mem_cons_self _ _)))) ?_
          intro i hi
          have hie : i = ins := by simpa using hi
          rw [hie]; exact h4
        · exact hp x (by rw [hdec]; exact List.mem_append.mpr (Or.inr (List.mem_cons_of_mem _ hx)))

/-- The SETLOCAL parameter prologue preserves the global invariant. -/
theorem ginv_emitParamStores : ∀ (args : List LocalVar) (st : AsmState) (p : Nat),
    GInv st → GInv (emitParamStores st p args) := by
  intro args
  induction args with
  | nil => intro st p h; exact h
  | cons a rest ih =>
    intro st p h
    show GInv (emitParamStores (emitAt st p (instrI Opcode.op_setlocal a.index)) p rest)
    exact ih _ p (ginv_emit_plain h (by simp [instrI]) (by simp [instrI])
      (by simp [instrI]) (by simp [instrI]))

/-- defineMethod preserves the global invariant: the new method holds a
single fresh entry label and no jumps or pushconsts. -/
theorem ginv_defineMethod {st : AsmState} (name : String) (hg : GInv st) :
    GInv (defineMethod st name).2 := by
  obtain ⟨hn, hb, hj, hp⟩ := hg
  have hmeth : (defineMethod st name).2.methods =
      st.methods ++ [⟨name, st.methodIndex, [labelInstr st.nextLbl], [], [], st.nextLbl, 0⟩] := rfl
  have hflat : labelIds (flatten (defineMethod st name).2) =
      labelIds (flatten st) ++ [st.nextLbl] := by
    rw [flatten_eq, hmeth, flatJoin_append, ← flatten_eq, labelIds_append]
    congr 1
  refine ⟨?_, ?_, ?_, ?_⟩
  · rw [hflat]
    refine List.Nodup.append hn (List.nodup_singleton _) ?_
    intro a ha ha2
    have h1 := hb a ha
    have h2 : a = st.nextLbl := by simpa using ha2
    omega
  · intro t ht
    rw [hflat] at ht
    show t < st.nextLbl + 1
    rcases List.mem_append.mp ht with ht | ht
    · have := hb t ht; omega
    · have : t = st.nextLbl := by simpa using ht
      omega
  · intro x hx
    rw [hmeth] at hx
    rcases List.mem_append.mp hx with hx | hx
    · exact hj x hx
    · have hxe : x = ⟨name, st.methodIndex, [labelInstr st.nextLbl], [], [], st.nextLbl, 0⟩ := by
        simpa using hx
      intro ins hins hop
      rw [hxe] at hins
      have : ins = labelInstr st.nextLbl := by simpa using hins
      rw [this] at hop
      rcases hop with hx2 | hx2 <;> simp [labelInstr] at hx2
  · intro x hx
    rw [hmeth] at hx
    show PushInv st.cpool.length x
    rcases List.mem_append.mp hx with hx | hx
    · exact hp x hx
    · have hxe : x = ⟨name, st.methodIndex, [labelInstr st.nextLbl], [], [], st.nextLbl, 0⟩ := by
        simpa using hx
      intro ins hins hop
      rw [hxe] at hins
      have : ins = labelInstr st.nextLbl := by simpa using hins
      rw [this] at hop
      simp [labelInstr] at hop

/-- Emitting a freshly allocated label (supply bumped past it first)
preserves the global invariant. -/
theorem ginv_emit_fresh_label {st : AsmState} {p : Nat} (hg : GInv st) :
    GInv (emitAt { st with nextLbl := st.nextLbl + 1 } p (labelInstr st.nextLbl)) := by
  obtain ⟨hn, hb, hj, hp⟩ := hg
  cases hq : st.methods.get? p with
  | none =>
    have hlen : st.methods.length ≤ p := List.get?_eq_none.mp hq
    have hoob : emitAt { st with nextLbl := st.nextLbl + 1 } p (labelInstr st.nextLbl) =
        { st with nextLbl := st.nextLbl + 1 } := emitAt_oob _ hlen
    rw [hoob]
    refine ⟨hn, ?_, hj, hp⟩
    intro t ht
    have := hb t ht
    show t < st.nextLbl + 1
    omega
  | some m =>
    obtain ⟨pre, post, hdec, hlen⟩ := get?_split st.methods p m hq
    have hmeth : (emitAt { st with nextLbl := st.nextLbl + 1 } p (labelInstr st.nextLbl)).methods =
        pre ++ { m with instructions := m.instructions ++ [labelInstr st.nextLbl] } :: post := by
      show updMethod st.methods p _ = _
      rw [hdec, ← hlen, updMethod_decomp]
    have hflat : labelIds (flatten (emitAt { st with nextLbl := st.nextLbl + 1 } p (labelInstr st.nextLbl))) =
        labelIds (flatJoin pre) ++
          ((labelIds m.instructions ++ [st.nextLbl]) ++ labelIds (flatJoin post)) := by
      rw [flatten_eq,
          labelIds_flatten_ext hmeth (show _ = m.instructions ++ [labelInstr st.nextLbl] from rfl),
          labelIds_labelInstr]
    have hold : labelIds (flatten st) =
        labelIds (flatJoin pre) ++ (labelIds m.instructions ++ labelIds (flatJoin post)) := by
      rw [flatten_eq, labelIds_flatten_decomp hdec]
    refine ⟨?_, ?_, ?_, ?_⟩
    · rw [hflat]
      refine nodup_mid_insert ?_ (List.nodup_singleton _) ?_
      · rw [← hold]; exact hn
      · intro t ht ht2
        have hte : t = st.nextLbl := by simpa using ht
        rw [← hold] at ht2
        have := hb t ht2
        omega
    · intro t ht
      rw [hflat] at ht
      show t < st.nextLbl + 1
      rcases List.mem_append.mp ht with ht | ht
      · have : t ∈ labelIds (flatten st) := by rw [hold]; exact List.mem_append.mpr (Or.inl ht)
        have := hb t this
        omega
      · rcases List.mem_append.mp ht with ht | ht
        · rcases List.mem_append.mp ht with ht | ht
          · have : t ∈ labelIds (flatten st) := by
              rw [hold]
              exact List.mem_append.mpr (Or.inr (List.mem_append.mpr (Or.inl ht)))
            have := hb t this
            omega
          · have : t = st.nextLbl := by simpa using ht
            omega
        · have : t ∈ labelIds (flatten st) := by
            rw [hold]
            exact List.mem_append.mpr (Or.inr (List.mem_append.mpr (Or.inr ht)))
          have := hb t this
          omega
    · intro x hx
      rw [hmeth] at hx
      rcases List.mem_append.mp hx with hx | hx
      · exact hj x (by rw [hdec]; exact List.mem_append.mpr (Or.inl hx))
      · rcases List.mem_cons.mp hx with hx | hx
        · rw [hx]
          refine JInv_extend [labelInstr st.nextLbl]
            (hj m (by rw [hdec]; exact List.mem_append.mpr (Or.inr (List.mem_cons_self _ _)))) ?_
          intro i hi
          have hie : i = labelInstr st.nextLbl := by simpa using hi
          rw [hie]
          exact ⟨by simp [labelInstr], by simp [labelInstr]⟩
        · exact hj x (by rw [hdec]; exact List.mem_append.mpr (Or.inr (List.mem_cons_of_mem _ hx)))
    · intro x hx
      rw [hmeth] at hx
      show PushInv st.cpool.length x
      rcases List.mem_append.mp hx with hx | hx
      · exact hp x (by rw [hdec]; exact List.mem_append.mpr (Or.inl hx))
      · rcases List.mem_cons.mp hx with hx | hx
        · rw [hx]
          refine pushInv_extend [labelInstr st.nextLbl]
            (hp m (by rw [hdec]; exact List.mem_append.mpr (Or.inr (List.mem_cons_self _ _)))) ?_
          intro i hi
          have hie : i = labelInstr st.nextLbl := by simpa using hi
          rw [hie]
          simp [labelInstr]
        · exact hp x (by rw [hdec]; exact List.mem_append.mpr (Or.inr (List.mem_cons_of_mem _ hx)))

theorem getq_ne {α : Type} : ∀ (pre : List α) (x y : α) (post : List α) (q : Nat),
    q ≠ pre.length → (pre ++ x :: post).get? q = (pre ++ y :: post).get? q := by
  intro pre
  induction pre with
  | nil =>
    intro x y post q hq
    cases q with
    | zero => exact absurd rfl hq
    | succ q => rfl
  | cons a r ih =>
    intro x y post q hq
    cases q with
    | zero => rfl
    | succ q => exact ih x y post q (by simpa using hq)

/-- One walker call starting from a globally sound state leaves the state
sound, with the active method weakened to JInvW (its new jumps already see
their labels; the closing RETURN is still to come). -/
theorem ginvAt_of_stEff {st st2 : AsmState} {p : Nat}
    (hg : GInv st) (he : StEff st p st2) : GInvAt st2 p := by
  obtain ⟨hn, hb, hj, hp⟩ := hg
  obtain ⟨e1, e2, e3, e4, e5, ⟨ce, e6⟩, e7, e8⟩ := he
  have hclen : st.cpool.length ≤ st2.cpool.length := by
    rw [e6]; simp
  cases hq : st.methods.get? p with
  | none =>
    have hlen : st.methods.length ≤ p := List.get?_eq_none.mp hq
    have hm2 := e8 hlen
    have hflat : labelIds (flatten st2) = labelIds (flatten st) := by
      rw [flatten_eq, hm2, ← flatten_eq]
    refine ⟨?_, ?_, ?_, ?_⟩
    · rw [hflat]; exact hn
    · intro t ht
      rw [hflat] at ht
      have := hb t ht
      omega
    · intro q mq hmq
      rw [hm2] at hmq
      have hqlt : q < st.methods.length := (List.get?_eq_some.mp hmq).1
      constructor
      · intro hqp; omega
      · intro _; exact hj mq (List.get?_mem hmq)
    · intro x hx
      rw [hm2] at hx
      exact PushInv_mono hclen (hp x hx)
  | some m =>
    obtain ⟨pre, post, hdec, hlen⟩ := get?_split st.methods p m hq
    obtain ⟨m2, suf, hdec2, hi2, hnm, hix, hel, har, ⟨vext, hv⟩, hsuf⟩ := e7 pre m post hdec hlen
    have hold : labelIds (flatten st) =
        labelIds (flatJoin pre) ++ (labelIds m.instructions ++ labelIds (flatJoin post)) := by
      rw [flatten_eq, labelIds_flatten_decomp hdec]
    have hflat : labelIds (flatten st2) =
        labelIds (flatJoin pre) ++
          ((labelIds m.instructions ++ labelIds suf) ++ labelIds (flatJoin post)) := by
      rw [flatten_eq, labelIds_flatten_ext hdec2 hi2]
    have hmmem : m ∈ st.methods := by
      rw [hdec]; exact List.mem_append.mpr (Or.inr (List.mem_cons_self _ _))
    refine ⟨?_, ?_, ?_, ?_⟩
    · rw [hflat]
      refine nodup_mid_insert ?_ hsuf.1 ?_
      · rw [← hold]; exact hn
      · intro t ht ht2
        have h1 := (hsuf.2.1 t ht).1
        rw [← hold] at ht2
        have := hb t ht2
        omega
    · intro t ht
      rw [hflat] at ht
      rcases List.mem_append.mp ht with ht | ht
      · have : t ∈ labelIds (flatten st) := by
          rw [hold]; exact List.mem_append.mpr (Or.inl ht)
        have := hb t this
        omega
      · rcases List.mem_append.mp ht with ht | ht
        · rcases List.mem_append.mp ht with ht | ht
          · have : t ∈ labelIds (flatten st) := by
              rw [hold]
              exact List.mem_append.mpr (Or.inr (List.mem_append.mpr (Or.inl ht)))
            have := hb t this
            omega
          · exact (hsuf.2.1 t ht).2
        · have : t ∈ labelIds (flatten st) := by
            rw [hold]
            exact List.mem_append.mpr (Or.inr (List.mem_append.mpr (Or.inr ht)))
          have := hb t this
          omega
    · intro q mq hmq
      rw [hdec2] at hmq
      constructor
      · intro hqp
        rw [hqp, ← hlen] at hmq
        rw [get?_decomp] at hmq
        have hmq2 : mq = m2 := (Option.some.inj hmq).symm
        rw [hmq2]
        exact JInvW_congr hi2 (jinvw_append_suf (jinvw_of_jinv (hj m hmmem)) hsuf)
      · intro hqp
        rw [getq_ne pre m2 m post q (by omega)] at hmq
        rw [← hdec] at hmq
        exact hj mq (List.get?_mem hmq)
    · intro x hx
      rw [hdec2] at hx
      rcases List.mem_append.mp hx with hx | hx
      · refine PushInv_mono hclen (hp x ?_)
        rw [hdec]; exact List.mem_append.mpr (Or.inl hx)
      · rcases List.mem_cons.mp hx with hx | hx
        · rw [hx]
          exact PushInv_congr hi2
            (pushInv_append_suf (PushInv_mono hclen (hp m hmmem)) hsuf)
        · refine PushInv_mono hclen (hp x ?_)
          rw [hdec]; exact List.mem_append.mpr (Or.inr (List.mem_cons_of_mem _ hx))

/-- Emitting the closing RETURN restores the full global invariant. -/
theorem ginv_of_return (st : AsmState) (p : Nat) (hga : GInvAt st p) :
    GInv (emitAt st p (instrI Opcode.op_return 0)) := by
  obtain ⟨hn, hb, hj, hp⟩ := hga
  cases hq : st.methods.get? p with
  | none =>
    have hlen : st.methods.length ≤ p := List.get?_eq_none.mp hq
    rw [emitAt_oob _ hlen]
    refine ⟨hn, hb, ?_, hp⟩
    intro x hx
    obtain ⟨q, hqx⟩ := mem_getq st.methods x hx
    have hqlt : q < st.methods.length := (List.get?_eq_some.mp hqx).1
    exact (hj q x hqx).2 (by omega)
  | some m =>
    obtain ⟨pre, post, hdec, hlen⟩ := get?_split st.methods p m hq
    have hmeth : (emitAt st p (instrI Opcode.op_return 0)).methods =
        pre ++ { m with instructions := m.instructions ++ [instrI Opcode.op_return 0] } :: post := by
      show updMethod st.methods p _ = _
      rw [hdec, ← hlen, updMethod_decomp]
    have hflat : labelIds (flatten (emitAt st p (instrI Opcode.op_return 0))) =
        labelIds (flatten st) := by
      rw [flatten_eq, flatten_eq,
          labelIds_flatten_ext hmeth
            (show _ = m.instructions ++ [instrI Opcode.op_return 0] from rfl),
          labelIds_flatten_decomp hdec,
          labelIds_single_nonlabel (instrI Opcode.op_return 0) (by simp [instrI])]
      simp
    refine ⟨?_, ?_, ?_, ?_⟩
    · rw [hflat]; exact hn
    · intro t ht
      rw [hflat] at ht
      exact hb t ht
    · intro x hx
      rw [hmeth] at hx
      rcases List.mem_append.mp hx with hx | hx
      · obtain ⟨q0, hq0⟩ := mem_getq pre x hx
        have hq0lt : q0 < pre.length := (List.get?_eq_some.mp hq0).1
        have hst : st.methods.get? q0 = some x := by
          rw [hdec, getq_left pre (m :: post) q0 hq0lt]
          exact hq0
        exact (hj q0 x hst).2 (by omega)
      · rcases List.mem_cons.mp hx with hx | hx
        · rw [hx]
          exact jinv_of_jinvw_ret ((hj p m hq).1 rfl)
        · obtain ⟨q0, hq0⟩ := mem_getq post x hx
          have hst : st.methods.get? (pre.length + (q0 + 1)) = some x := by
            rw [hdec, getq_right pre (m :: post) (q0 + 1)]
            exact hq0
          exact (hj (pre.length + (q0 + 1)) x hst).2 (by omega)
    · intro x hx
      rw [hmeth] at hx
      show PushInv st.cpool.length x
      rcases List.mem_append.mp hx with hx | hx
      · exact hp x (by rw [hdec]; exact List.mem_append.mpr (Or.inl hx))
      · rcases List.mem_cons.mp hx with hx | hx
        · rw [hx]
          refine pushInv_extend [instrI Opcode.op_return 0]
            (hp m (by rw [hdec]; exact List.mem_append.mpr (Or.inr (List.mem_cons_self _ _)))) ?_
          intro i hi
          have hie : i = instrI Opcode.op_return 0 := by simpa using hi
          rw [hie]
          simp [instrI]
        · exact hp x (by rw [hdec]; exact List.mem_append.mpr (Or.inr (List.mem_cons_of_mem _ hx)))

/-- Replacing a method by one with the same instruction list preserves the
global invariant. -/
theorem ginv_replace_same_instr {st : AsmState} {p : Nat} {m m2 : AsmMethod}
    (hm : st.methods.get? p = some m) (hi : m2.instructions = m.instructions)
    (hg : GInv st) : GInv { st with methods := updMethod st.methods p (fun _ => m2) } := by
  obtain ⟨pre, post, hdec, hlen⟩ := get?_split st.methods p m hm
  obtain ⟨hn, hb, hj, hp⟩ := hg
  have hmeth : updMethod st.methods p (fun _ => m2) = pre ++ m2 :: post := by
    rw [hdec, ← hlen, updMethod_decomp]
  have hflat : labelIds (flatJoin (updMethod st.methods p (fun _ => m2))) =
      labelIds (flatten st) := by
    rw [labelIds_flatten_ext hmeth (show m2.instructions = m.instructions ++ [] by simp [hi]),
        flatten_eq, labelIds_flatten_decomp hdec]
    simp [labelIds]
  have hmmem : m ∈ st.methods := by
    rw [hdec]; exact List.mem_append.mpr (Or.inr (List.mem_cons_self _ _))
  refine ⟨?_, ?_, ?_, ?_⟩
  · show (labelIds (flatJoin (updMethod st.methods p (fun _ => m2)))).Nodup
    rw [hflat]; exact hn
  · intro t ht
    have ht2 : t ∈ labelIds (flatJoin (updMethod st.methods p (fun _ => m2))) := ht
    rw [hflat] at ht2
    exact hb t ht2
  · intro x hx
    have hx2 : x ∈ pre ++ m2 :: post := by rw [← hmeth]; exact hx
    rcases List.mem_append.mp hx2 with hx2 | hx2
    · exact hj x (by rw [hdec]; exact List.mem_append.mpr (Or.inl hx2))
    · rcases List.mem_cons.mp hx2 with hx2 | hx2
      · rw [hx2]
        exact JInv_congr hi (hj m hmmem)
      · exact hj x (by rw [hdec]; exact List.mem_append.mpr (Or.inr (List.mem_cons_of_mem _ hx2)))
  · intro x hx
    have hx2 : x ∈ pre ++ m2 :: post := by rw [← hmeth]; exact hx
    show PushInv st.cpool.length x
    rcases List.mem_append.mp hx2 with hx2 | hx2
    · exact hp x (by rw [hdec]; exact List.mem_append.mpr (Or.inl hx2))
    · rcases List.mem_cons.mp hx2 with hx2 | hx2
      · rw [hx2]
        exact PushInv_congr hi (hp m hmmem)
      · exact hp x (by rw [hdec]; exact List.mem_append.mpr (Or.inr (List.mem_cons_of_mem _ hx2)))

/-- Declaring parameters touches no instruction list, hence preserves the
global invariant. -/
theorem ginv_defineProcArgs : ∀ (args : List ProcArg) (st : AsmState) (p : Nat)
    (st2 : AsmState), defineProcArgs st p args = .ok st2 → GInv st → GInv st2 := by
  intro args
  induction args with
  | nil =>
    intro st p st2 h hg
    rw [← Except.ok.inj h]
    exact hg
  | cons a rest ih =>
    intro st p st2 h hg
    simp only [defineProcArgs] at h
    split at h
    · exact Except.noConfusion h
    · split at h
      · exact Except.noConfusion h
      · rename_i m heq
        exact ih _ p st2 h (ginv_replace_same_instr heq rfl hg)

/-- defineProc (hoisting one proc) preserves the global invariant. -/
theorem ginv_defineProcA {st : AsmState} {name : String} {args : List ProcArg}
    {st2 : AsmState} (h : defineProcA st name args = .ok st2) (hg : GInv st) :
    GInv st2 := by
  simp only [defineProcA] at h
  split at h
  · exact Except.noConfusion h
  · exact ginv_defineProcArgs args _ _ st2 h (ginv_defineMethod name hg)

/-- The hoisting loop preserves the global invariant. -/
theorem ginv_hoistPhase : ∀ (prog : List TopLevel) (st st2 : AsmState),
    hoistPhase st prog = .ok st2 → GInv st → GInv st2 := by
  intro prog
  induction prog with
  | nil =>
    intro st st2 h hg
    rw [← Except.ok.inj h]
    exact hg
  | cons t rest ih =>
    intro st st2 h hg
    cases t with
    | trigger name value body => exact ih st st2 h hg
    | proc name args body =>
      simp only [hoistPhase] at h
      split at h
      · exact Except.noConfusion h
      · rename_i st1 heq
        exact ih st1 st2 h (ginv_defineProcA heq hg)

/-- assembleProc preserves the global invariant. -/
theorem ginv_assembleProcA {fuel : Nat} {st : AsmState} {name : String} {body : Stmt}
    {st2 : AsmState} (h : assembleProcA fuel st name body = .ok st2) (hg : GInv st) :
    GInv st2 := by
  simp only [assembleProcA] at h
  split at h
  · exact Except.noConfusion h
  · rename_i p hr
    split at h
    · exact Except.noConfusion h
    · rename_i m hm
      split at h
      · exact Except.noConfusion h
      · rename_i st4 n2 heq
        have he := assembleN_eff _ _ _ _ _ _ heq
        have hga := ginvAt_of_stEff (ginv_emitParamStores m.arguments st p hg) he
        rw [← Except.ok.inj h]
        exact ginv_of_return st4 p hga

/-- assembleTrigger preserves the global invariant. -/
theorem ginv_assembleTriggerA {fuel : Nat} {st : AsmState} {name value : String}
    {body : Stmt} {st2 : AsmState}
    (h : assembleTriggerA fuel st name value body = .ok st2) (hg : GInv st) :
    GInv st2 := by
  simp only [assembleTriggerA] at h
  split at h
  · exact Except.noConfusion h
  · rename_i listener hl
    split at h
    · exact Except.noConfusion h
    · rename_i parsed hpv
      split at h
      · exact Except.noConfusion h
      · rename_i st4 n2 heq
        have he := assembleN_eff _ _ _ _ _ _ heq
        rw [← Except.ok.inj h]
        refine ginv_of_return st4 _ (ginvAt_of_stEff ?_ he)
        have hg1 := ginv_defineMethod
          ("@" ++ name ++ "@" ++ value ++ "@" ++ toString st.triggerIndex) hg
        exact @ginv_emit_fresh_label
          { (defineMethod st ("@" ++ name ++ "@" ++ value ++ "@" ++ toString st.triggerIndex)).2 with
            triggerIndex := (defineMethod st ("@" ++ name ++ "@" ++ value ++ "@" ++ toString st.triggerIndex)).2.triggerIndex + 1 }
          ((defineMethod st ("@" ++ name ++ "@" ++ value ++ "@" ++ toString st.triggerIndex)).1)
          hg1

/-- One top-level node preserves the global invariant. -/
theorem ginv_assembleTopLevel {fuel : Nat} {st : AsmState} {t : TopLevel}
    {st2 : AsmState} (h : assembleTopLevel fuel st t = .ok st2) (hg : GInv st) :
    GInv st2 := by
  cases t with
  | trigger name value body => exact ginv_assembleTriggerA h hg
  | proc name args body => exact ginv_assembleProcA h hg

/-- The body-assembly loop preserves the global invariant. -/
theorem ginv_walkPhase : ∀ (prog : List TopLevel) (fuel : Nat) (st st2 : AsmState),
    walkPhase fuel st prog = .ok st2 → GInv st → GInv st2 := by
  intro prog
  induction prog with
  | nil =>
    intro fuel st st2 h hg
    rw [← Except.ok.inj h]
    exact hg
  | cons t rest ih =>
    intro fuel st st2 h hg
    simp only [walkPhase] at h
    split at h
    · exact Except.noConfusion h
    · rename_i st1 heq
      exact ih fuel st1 st2 h (ginv_assembleTopLevel heq hg)

/-- The empty assembler state satisfies the global invariant. -/
theorem ginv_initState (rt : AdderRuntime) : GInv (initState rt) := by
  refine ⟨?_, ?_, ?_, ?_⟩
  · show (labelIds (flatJoin [])).Nodup
    simp [flatJoin, labelIds]
  · intro t ht
    simp [flatten, initState, labelIds] at ht
  · intro x hx
    simp [initState] at hx
  · intro x hx
    simp [initState] at hx

/-- Every state produced by AssembleProgram satisfies the global
invariant. -/
theorem ginv_assembleProgram {fuel : Nat} {rt : AdderRuntime} {prog : List TopLevel}
    {st : AsmState} (h : assembleProgram fuel rt prog = .ok st) : GInv st := by
  simp only [assembleProgram] at h
  split at h
  · exact Except.noConfusion h
  · rename_i st1 heq
    exact ginv_walkPhase prog fuel st1 st h (ginv_hoistPhase prog (initState rt) st1 heq (ginv_initState rt))

/-- If the label never occurs, the layout loop leaves the patched value
unchanged. -/
theorem layoutOpAux_not_mem : ∀ (l : List Instr) (c : Nat) (v : Int) (lab : Nat),
    lab ∉ labelIds l → layoutOpAux l c v lab = v := by
  intro l
  induction l with
  | nil => intro c v lab _; rfl
  | cons a r ih =>
    intro c v lab hmem
    rw [labelIds_cons] at hmem
    simp only [layoutOpAux]
    by_cases ha : a.opcode = Opcode.op_label
    · rw [if_pos ha] at hmem
      have hid : a.lblId ≠ lab := by
        intro hcon
        exact hmem (hcon ▸ List.mem_cons_self _ _)
      have hmem2 : lab ∉ labelIds r := fun hc => hmem (List.mem_cons_of_mem _ hc)
      rw [show (a.opcode == Opcode.op_label && a.lblId == lab) = false by
            simp [ha, hid],
          show (a.opcode == Opcode.op_label) = true by simp [ha]]
      exact ih c v lab hmem2
    · rw [if_neg ha] at hmem
      rw [show (a.opcode == Opcode.op_label && a.lblId == lab) = false by
            simp [ha],
          show (a.opcode == Opcode.op_label) = false by simp [ha]]
      exact ih (c + 1) v lab hmem

/-- Skipping a label-free prefix only advances the address counter. -/
theorem layoutOpAux_append : ∀ (l1 l2 : List Instr) (c : Nat) (v : Int) (lab : Nat),
    lab ∉ labelIds l1 →
    layoutOpAux (l1 ++ l2) c v lab = layoutOpAux l2 (c + countNonLabel l1) v lab := by
  intro l1
  induction l1 with
  | nil =>
    intro l2 c v lab _
    show layoutOpAux l2 c v lab = layoutOpAux l2 (c + countNonLabel []) v lab
    rfl
  | cons a r ih =>
    intro l2 c v lab hmem
    rw [labelIds_cons] at hmem
    show layoutOpAux (a :: (r ++ l2)) c v lab = _
    simp only [layoutOpAux]
    by_cases ha : a.opcode = Opcode.op_label
    · rw [if_pos ha] at hmem
      have hid : a.lblId ≠ lab := by
        intro hcon
        exact hmem (hcon ▸ List.mem_cons_self _ _)
      have hmem2 : lab ∉ labelIds r := fun hc => hmem (List.mem_cons_of_mem _ hc)
      rw [show (a.opcode == Opcode.op_label && a.lblId == lab) = false by
            simp [ha, hid],
          show (a.opcode == Opcode.op_label) = true by simp [ha]]
      show layoutOpAux (r ++ l2) c v lab = _
      rw [ih l2 c v lab hmem2, countNonLabel_cons, if_pos ha]
      simp
    · rw [if_neg ha] at hmem
      rw [show (a.opcode == Opcode.op_label && a.lblId == lab) = false by
            simp [ha],
          show (a.opcode == Opcode.op_label) = false by simp [ha]]
      show layoutOpAux (r ++ l2) (c + 1) v lab = _
      rw [ih l2 (c + 1) v lab hmem, countNonLabel_cons, if_neg ha]
      congr 1
      omega

/-- Reaching the unique occurrence of the label writes the current address
and nothing later overwrites it. -/
theorem layoutOpAux_at_label (labIns : Instr) (l2 : List Instr) (c : Nat) (v : Int)
    (lab : Nat) (hop : labIns.opcode = Opcode.op_label) (hid : labIns.lblId = lab)
    (hmem : lab ∉ labelIds l2) :
    layoutOpAux (labIns :: l2) c v lab = (c : Int) := by
  simp only [layoutOpAux]
  rw [show (labIns.opcode == Opcode.op_label && labIns.lblId == lab) = true by
        simp [hop, hid],
      show (labIns.opcode == Opcode.op_label) = true by simp [hop]]
  exact layoutOpAux_not_mem l2 c (c : Int) lab hmem

/-- The operand patched for label `lab` is the number of non-label
instructions before its (unique) occurrence. -/
theorem layoutOperand_split {flat F1 F2 : List Instr} {labIns : Instr} {lab : Nat}
    (hdec : flat = F1 ++ labIns :: F2)
    (hop : labIns.opcode = Opcode.op_label) (hid : labIns.lblId = lab)
    (h1 : lab ∉ labelIds F1) (h2 : lab ∉ labelIds F2) :
    layoutOperand flat lab = (countNonLabel F1 : Int) := by
  rw [layoutOperand, hdec, layoutOpAux_append F1 _ 0 0 lab h1,
      layoutOpAux_at_label labIns F2 (0 + countNonLabel F1) 0 lab hop hid h2]
  simp

/-- The address at the start of a decomposition. -/
theorem addrAt_prefix (F1 rest : List Instr) : addrAt (F1 ++ rest) F1.length = countNonLabel F1 := by
  rw [addrAt, take_len_append]

/-- Taking one more instruction adds one to the address exactly when it is
not a label. -/
theorem addrAt_succ (flat : List Instr) (t : Nat) (i : Instr)
    (h : flat.get? t = some i) :
    addrAt flat (t + 1) =
      addrAt flat t + (if i.opcode = Opcode.op_label then 0 else 1) := by
  have h2 : flat[t]? = some i := by rw [← List.get?_eq_getElem?]; exact h
  rw [addrAt, addrAt, List.take_succ, h2, countNonLabel_append]
  show _ = _ + (if i.opcode = Opcode.op_label then 0 else 1)
  rw [show countNonLabel (Option.some i).toList = countNonLabel [i] from rfl,
      countNonLabel_cons]
  show countNonLabel (flat.take t) + ((if i.opcode = Opcode.op_label then 0 else 1) + countNonLabel []) = _
  by_cases hop : i.opcode = Opcode.op_label
  · simp [countNonLabel]
  · simp [countNonLabel]

/-- Positions whose instructions are all labels do not advance the
address. -/
theorem addrAt_labels_range : ∀ (d : Nat) (flat : List Instr) (kL j : Nat),
    j - kL = d → kL ≤ j →
    (∀ t tIns, kL ≤ t → t < j → flat.get? t = some tIns →
      tIns.opcode = Opcode.op_label) →
    addrAt flat j = addrAt flat kL := by
  intro d
  induction d with
  | zero =>
    intro flat kL j hd hle _
    have : j = kL := by omega
    rw [this]
  | succ d ih =>
    intro flat kL j hd hle hmid
    have hj1 : j = (j - 1) + 1 := by omega
    cases hq : flat.get? (j - 1) with
    | none =>
      have hlen : flat.length ≤ j - 1 := List.get?_eq_none.mp hq
      have h1 : addrAt flat j = countNonLabel flat := by
        rw [addrAt, List.take_of_length_le (by omega)]
      have h2 : addrAt flat (j - 1) = countNonLabel flat := by
        rw [addrAt, List.take_of_length_le (by omega)]
      rw [h1, ← h2]
      exact ih flat kL (j - 1) (by omega) (by omega) (fun t tIns h1 h2 h3 => hmid t tIns h1 (by omega) h3)
    | some i =>
      have hlab : i.opcode = Opcode.op_label := hmid (j - 1) i (by omega) (by omega) hq
      have := addrAt_succ flat (j - 1) i hq
      rw [if_pos hlab] at this
      rw [hj1, this, Nat.add_zero]
      exact ih flat kL (j - 1) (by omega) (by omega) (fun t tIns h1 h2 h3 => hmid t tIns h1 (by omega) h3)

/-- Between any position and a later non-label instruction there is a first
non-label instruction. -/
theorem exists_first_nonlabel : ∀ (d : Nat) (flat : List Instr) (kL j0 : Nat)
    (ins0 : Instr), j0 - kL ≤ d → kL < j0 → flat.get? j0 = some ins0 →
    ins0.opcode ≠ Opcode.op_label →
    ∃ j jIns, kL < j ∧ flat.get? j = some jIns ∧ jIns.opcode ≠ Opcode.op_label ∧
      (∀ t tIns, kL < t → t < j → flat.get? t = some tIns →
        tIns.opcode = Opcode.op_label) := by
  intro d
  induction d with
  | zero =>
    intro flat kL j0 ins0 hd h1 _ _
    omega
  | succ d ih =>
    intro flat kL j0 ins0 hd h1 h2 h3
    by_cases hall : ∀ t tIns, kL < t → t < j0 → flat.get? t = some tIns →
        tIns.opcode = Opcode.op_label
    · exact ⟨j0, ins0, h1, h2, h3, hall⟩
    · push_neg at hall
      obtain ⟨t, tIns, ht1, ht2, ht3, ht4⟩ := hall
      exact ih flat kL t tIns (by omega) ht1 ht3 ht4

theorem mem_flatJoin : ∀ (ms : List AsmMethod) (i : Instr), i ∈ flatJoin ms →
    ∃ m, m ∈ ms ∧ i ∈ m.instructions := by
  intro ms
  induction ms with
  | nil => intro i h; simp [flatJoin] at h
  | cons a r ih =>
    intro i h
    rw [flatJoin_cons] at h
    rcases List.mem_append.mp h with h | h
    · exact ⟨a, List.mem_cons_self _ _, h⟩
    · obtain ⟨m, hm, hi⟩ := ih i h
      exact ⟨m, List.mem_cons_of_mem _ hm, hi⟩

theorem mem_flatJoin_decomp : ∀ (ms : List AsmMethod) (m : AsmMethod), m ∈ ms →
    ∃ F1 F2, flatJoin ms = F1 ++ (m.instructions ++ F2) := by
  intro ms
  induction ms with
  | nil => intro m h; simp at h
  | cons a r ih =>
    intro m h
    rcases List.mem_cons.mp h with h | h
    · exact ⟨[], flatJoin r, by rw [flatJoin_cons, h]; rfl⟩
    · obtain ⟨F1, F2, hF⟩ := ih m h
      exact ⟨a.instructions ++ F1, F2, by rw [flatJoin_cons, hF, List.append_assoc]⟩

/-- C5: for every accepted program, every JZ or JMP instruction in the
assembled output was patched against some label L; after the layout pass its
operand equals the address assigned to L, which equals the address of the
first non-label instruction following L in program order (only labels sit in
between, and the address counter is incremented only for non-label
instructions). -/
theorem c5_label_layout_sound (fuel : Nat) (rt : AdderRuntime) (prog : List TopLevel)
    (st : AsmState) (h : assembleProgram fuel rt prog = .ok st)
    (k : Nat) (ins : Instr) (hk : (flatten st).get? k = some ins)
    (hop : ins.opcode = Opcode.op_jz ∨ ins.opcode = Opcode.op_jmp) :
    ∃ lab kL labIns, ins.arg = Operand.lbl lab ∧
      (flatten st).get? kL = some labIns ∧ labIns.opcode = Opcode.op_label ∧
      labIns.lblId = lab ∧
      patchedOperand (flatten st) ins = (addrAt (flatten st) kL : Int) ∧
      ∃ j jIns, kL < j ∧ (flatten st).get? j = some jIns ∧
        jIns.opcode ≠ Opcode.op_label ∧
        (∀ t tIns, kL < t → t < j → (flatten st).get? t = some tIns →
          tIns.opcode = Opcode.op_label) ∧
        addrAt (flatten st) j = addrAt (flatten st) kL := by
  obtain ⟨hn, hb, hj, hp⟩ := ginv_assembleProgram h
  have hmem : ins ∈ flatten st := List.get?_mem hk
  have hmem2 : ins ∈ flatJoin st.methods := by rw [← flatten_eq]; exact hmem
  obtain ⟨m, hmm, hmi⟩ := mem_flatJoin st.methods ins hmem2
  obtain ⟨lab, harg, kM, labIns, hkM, hlab, hid, jM, jIns, hkj, hjM, hjnl⟩ :=
    hj m hmm ins hmi hop
  obtain ⟨F1, F2, hF⟩ := mem_flatJoin_decomp st.methods m hmm
  have hkL : (flatten st).get? (F1.length + kM) = some labIns := by
    rw [flatten_eq, hF, getq_right, getq_left _ _ _ (List.get?_eq_some.mp hkM).1]
    exact hkM
  have hjF : (flatten st).get? (F1.length + jM) = some jIns := by
    rw [flatten_eq, hF, getq_right, getq_left _ _ _ (List.get?_eq_some.mp hjM).1]
    exact hjM
  obtain ⟨G1, G2, hG, hGlen⟩ := getq_split_gen (flatten st) (F1.length + kM) labIns hkL
  have hids : labelIds (flatten st) = labelIds G1 ++ (lab :: labelIds G2) := by
    rw [hG, labelIds_append, labelIds_cons, if_pos hlab, hid]
  rw [hids, List.nodup_append] at hn
  obtain ⟨hnd1, hnd2, hdisj⟩ := hn
  have h1 : lab ∉ labelIds G1 := fun hc => hdisj hc (List.mem_cons_self _ _)
  have h2 : lab ∉ labelIds G2 := (List.nodup_cons.mp hnd2).1
  have hlay : layoutOperand (flatten st) lab = (countNonLabel G1 : Int) :=
    layoutOperand_split hG hlab hid h1 h2
  have haddr : addrAt (flatten st) (F1.length + kM) = countNonLabel G1 := by
    rw [← hGlen, hG]
    exact addrAt_prefix G1 (labIns :: G2)
  obtain ⟨j, jIns2, hj1, hj2, hj3, hj4⟩ :=
    exists_first_nonlabel ((F1.length + jM) - (F1.length + kM)) (flatten st)
      (F1.length + kM) (F1.length + jM) jIns (le_refl _) (by omega) hjF hjnl
  have haj : addrAt (flatten st) j = addrAt (flatten st) (F1.length + kM) := by
    refine addrAt_labels_range (j - (F1.length + kM)) (flatten st)
      (F1.length + kM) j rfl (by omega) ?_
    intro t tIns ht1 ht2 ht3
    rcases Nat.eq_or_lt_of_le ht1 with he | hlt
    · rw [← he] at ht3
      have heqv : labIns = tIns := Option.some.inj (hkL.symm.trans ht3)
      rw [← heqv]
      exact hlab
    · exact hj4 t tIns hlt ht2 ht3
  refine ⟨lab, F1.length + kM, labIns, harg, hkL, hlab, hid, ?_, j, jIns2, hj1, hj2,
    hj3, hj4, haj⟩
  simp only [patchedOperand, harg]
  rw [hlay, haddr]

/-- C10: in every assembled program, each PUSHCONST instruction carries a
nonnegative immediate operand that is strictly below the length of the
final constant pool (interning only appends, so indices stay valid through
the end of assembly). -/
theorem c10_pushconst_operands_in_pool_bounds (fuel : Nat) (rt : AdderRuntime)
    (prog : List TopLevel) (st : AsmState)
    (h : assembleProgram fuel rt prog = .ok st) :
    ∀ m ∈ st.methods, ∀ ins ∈ m.instructions, ins.opcode = Opcode.op_pushconst →
      ∃ k : Nat, ins.arg = Operand.imm (k : Int) ∧ k < st.cpool.length := by
  intro m hm ins hins hop
  exact (ginv_assembleProgram h).2.2.2 m hm ins hins hop

theorem c5_label_layout_witness :
    assembleProgram 10 c5wrt c5wprog = Except.ok c5wst ∧
    (flatten c5wst).get? 2 = some c5wjz ∧
    (c5wjz.opcode = Opcode.op_jz ∨ c5wjz.opcode = Opcode.op_jmp) ∧
    (∃ lab kL labIns, c5wjz.arg = Operand.lbl lab ∧
      (flatten c5wst).get? kL = some labIns ∧ labIns.opcode = Opcode.op_label ∧
      labIns.lblId = lab ∧
      patchedOperand (flatten c5wst) c5wjz = (addrAt (flatten c5wst) kL : Int) ∧
      ∃ j jIns, kL < j ∧ (flatten c5wst).get? j = some jIns ∧
        jIns.opcode ≠ Opcode.op_label ∧
        (∀ t tIns, kL < t → t < j → (flatten c5wst).get? t = some tIns →
          tIns.opcode = Opcode.op_label) ∧
        addrAt (flatten c5wst) j = addrAt (flatten c5wst) kL) :=
  ⟨rfl, rfl, Or.inl rfl,
   c5_label_layout_sound 10 c5wrt c5wprog c5wst rfl 2 c5wjz rfl (Or.inl rfl)⟩

theorem c10_pushconst_witness :
    assembleProgram 10 c10wrt c10wprog = Except.ok c10wst ∧
    c10wm ∈ c10wst.methods ∧ c10wpush ∈ c10wm.instructions ∧
    c10wpush.opcode = Opcode.op_pushconst ∧
    (∃ k : Nat, c10wpush.arg = Operand.imm (k : Int) ∧ k < c10wst.cpool.length) :=
  ⟨rfl, by simp [c10wst], by simp [c10wm, c10wpush], rfl,
   c10_pushconst_operands_in_pool_bounds 10 c10wrt c10wprog c10wst rfl c10wm
     (by simp [c10wst]) c10wpush (by simp [c10wm, c10wpush]) rfl⟩
